import Mathlib

/-!
Verification of the `scheduler` backend (rodonguyen/cru): a shallow embedding of
the data loaders (`scheduler/loaders.py`), the aggregation/pivot engine
(`scheduler/processors.py`) and the HTTP view (`scheduler/views.py`), together
with theorems settling the specification claims about them.

Python exceptions are modelled with `Except`: a raised exception is an
`Except.error` carrying the message, so "raises and returns no partial result"
is "the result is `.error`".
-/

namespace Scheduler

/-! ## Data model (scheduler/models.py and the JSON record shapes read by the code) -/

/-- A position record: `{id: int, name: str}`. -/
structure Position where
  id : Int
  name : String
deriving DecidableEq

/-- A worker record: `{id: int, name: str, position_id: int|null}`. -/
structure Worker where
  id : Int
  name : String
  position_id : Option Int
deriving DecidableEq

/-- A task record: `{id: int, position_id: int|null, duration: int, date: "YYYY-MM-DD"}`. -/
structure Task where
  id : Int
  position_id : Option Int
  duration : Int
  date : String
deriving DecidableEq

/-- An assignment record: `{task_id: int, worker_id: int}`. -/
structure Assignment where
  task_id : Int
  worker_id : Int
deriving DecidableEq

/-- Modelled from the spec: `scheduler/constants.py` (imported by
`scheduler/processors.py` for `EMPTY_POSITION_ID`) is not part of the given
source tree.  The spec says the sentinel "no position" value is "a reserved id
distinct from all real ids"; we model it as `-1`.  Theorems that depend on the
reservation take it as an explicit hypothesis on the input data. -/
def EMPTY_POSITION_ID : Int := -1

/-- Modelled from the spec: display name of the sentinel bucket
(`scheduler/constants.py`, not in the given source tree; the spec fixes the
label "Empty Position"). -/
def EMPTY_POSITION_NAME : String := "Empty Position"

/-! ## Data loader (scheduler/loaders.py)

The loader caches each JSON array and builds a dict keyed by `id`
(`{task["id"]: task for task in data}`), in which a later duplicate id
overrides an earlier one; `get_..._by_id` then returns `dict.get(id)`, i.e.
`Option`.  We model the dict lookup as `find?` on the reversed list. -/

/-- An immutable snapshot of the four loaded collections. -/
structure DataLoader where
  positions : List Position
  workers : List Worker
  tasks : List Task
  assignments : List Assignment
deriving DecidableEq

/-- `DataLoader.get_task_by_id`: dict lookup built from `tasks.json` (last
duplicate id wins, `None` when absent). -/
def get_task_by_id (dl : DataLoader) (i : Int) : Option Task :=
  dl.tasks.reverse.find? (fun t => t.id == i)

/-- `DataLoader.get_worker_by_id`. -/
def get_worker_by_id (dl : DataLoader) (i : Int) : Option Worker :=
  dl.workers.reverse.find? (fun w => w.id == i)

/-- `DataLoader.get_position_by_id`. -/
def get_position_by_id (dl : DataLoader) (i : Int) : Option Position :=
  dl.positions.reverse.find? (fun p => p.id == i)

/-! ## Date parsing and formatting (`ScheduleDataProcessor._format_date`)

`_format_date` runs `datetime.strptime(date_str, "%Y-%m-%d")` and then Django's
`date_format(date_obj, "d M y")`.  CPython's `_strptime` compiles the format
into a regex with the dashes as literals and these field patterns, and demands
a full match of the whole string:
  `%Y` — exactly four digits;
  `%m` — `1[0-2]|0[1-9]|[1-9]` (one or two digits, value 1–12);
  `%d` — `3[01]|[12]\d|0[1-9]|[1-9]| [1-9]` (one or two digits, value 1–31,
         or a space followed by a nonzero digit);
`datetime` then validates the triple as a real calendar date (year ≥ 1, day
within the month, with leap years).  Because the dashes are literal and no
field pattern can consume a dash, parsing the whole string is equivalent to
splitting it at every dash into exactly three fields and checking each field;
a two-digit value the day/month regex excludes (00, 13–99 for the month,
00, 32–99 for the day) is exactly one the calendar-range check rejects, so the
embedding folds the regex's value constraints into that check.  Django's
`"d M y"` renders the day as two digits with a leading zero (`d`), the month
as a three-letter English abbreviation (`M`) and the year as two digits (`y`,
`year % 100` zero-padded). -/

/-- Split a character list on `'-'` (the literal dashes of `"%Y-%m-%d"`). -/
def splitDash : List Char → List (List Char)
  | [] => [[]]
  | c :: rest =>
    if c = '-' then [] :: splitDash rest
    else
      match splitDash rest with
      | g :: gs => (c :: g) :: gs
      | [] => [[c]]

/-- Decimal value of a digit string. -/
def digitsToNat (cs : List Char) : Nat :=
  cs.foldl (fun n c => 10 * n + (c.toNat - 48)) 0

/-- `True` for leap years, as `calendar`/`datetime` define them. -/
def isLeapYear (y : Nat) : Bool :=
  y % 4 == 0 && (y % 100 != 0 || y % 400 == 0)

/-- Number of days in month `m` of year `y`. -/
def daysInMonth (y m : Nat) : Nat :=
  if m = 2 then (if isLeapYear y then 29 else 28)
  else if m = 4 ∨ m = 6 ∨ m = 9 ∨ m = 11 then 30
  else 31

/-- strptime's `%Y` field: exactly four digits (CPython pattern `\d\d\d\d`);
`"999-01-15"` therefore fails to parse. -/
def validYearField (cs : List Char) : Bool :=
  cs.length == 4 && cs.all Char.isDigit

/-- strptime's `%m` field shape: one or two digits (no space padding); the
value range 1–12 of its pattern is checked with the calendar bounds below. -/
def validMonthField (cs : List Char) : Bool :=
  (cs.length == 1 || cs.length == 2) && cs.all Char.isDigit

/-- strptime's `%d` field: one or two digits, or a space followed by a nonzero
digit (the ` [1-9]` alternative, so `"2025-01- 5"` parses as day 5); the value
range of its pattern is checked with the calendar bounds below. -/
def dayFieldValue (cs : List Char) : Option Nat :=
  match cs with
  | [' ', c] => if '1' ≤ c && c ≤ '9' then some (c.toNat - 48) else none
  | _ =>
    if (cs.length == 1 || cs.length == 2) && cs.all Char.isDigit then
      some (digitsToNat cs)
    else none

/-- `datetime.strptime(s, "%Y-%m-%d").date()`: `some (y, m, d)` when the regex
match succeeds on the whole string and the triple is a real calendar date,
else `none` (a raised `ValueError`). -/
def parseIsoDate (s : String) : Option (Nat × Nat × Nat) :=
  match splitDash s.data with
  | [ys, ms, ds] =>
    if validYearField ys && validMonthField ms then
      match dayFieldValue ds with
      | none => none
      | some d =>
        let y := digitsToNat ys
        let m := digitsToNat ms
        if 1 ≤ y && y ≤ 9999 && 1 ≤ m && m ≤ 12 && 1 ≤ d && d ≤ daysInMonth y m then
          some (y, m, d)
        else none
    else none
  | _ => none

/-- The character for digit `n < 10`. -/
def digitChar (n : Nat) : Char := Char.ofNat (48 + n)

/-- Two-digit zero-padded decimal rendering (Django's `d` and `y` fields). -/
def pad2 (n : Nat) : String := String.mk [digitChar (n / 10 % 10), digitChar (n % 10)]

/-- Django's `M` field: three-letter English month abbreviation. -/
def monthAbbrev : Nat → String
  | 1 => "Jan" | 2 => "Feb" | 3 => "Mar" | 4 => "Apr"
  | 5 => "May" | 6 => "Jun" | 7 => "Jul" | 8 => "Aug"
  | 9 => "Sep" | 10 => "Oct" | 11 => "Nov" | 12 => "Dec"
  | _ => ""

/-- `ScheduleDataProcessor._format_date` (processors.py lines 26–40): parse with
`strptime("%Y-%m-%d")`, render with Django `date_format(-, "d M y")`; a parse
failure raises `ScheduleProcessorError`. -/
def format_date (s : String) : Except String String :=
  match parseIsoDate s with
  | none => .error ("Invalid date format " ++ s)
  | some (y, m, d) => .ok (pad2 d ++ " " ++ monthAbbrev m ++ " " ++ pad2 (y % 100))

/-! ## Comparator-based insertion sort (Python's `sorted`)

Python's `sorted` is a stable comparison sort; both uses in the processor sort
lists of pairwise-distinct elements (keys of a dict / elements of a set), so any
correct sort yields the same list.  We use a small insertion sort over a `Bool`
comparator. -/

/-- Insert `x` into `l` before the first element `y` with `¬ le x y`. -/
def insertSorted (le : α → α → Bool) (x : α) : List α → List α
  | [] => [x]
  | y :: ys => if le x y then x :: y :: ys else y :: insertSorted le x ys

/-- Sort `l` by the comparator `le`. -/
def sortBy (le : α → α → Bool) (l : List α) : List α :=
  l.foldr (insertSorted le) []

/-- Python string comparison: lexicographic, strict. -/
def charListLT : List Char → List Char → Bool
  | [], [] => false
  | [], _ :: _ => true
  | _ :: _, [] => false
  | a :: as, b :: bs => if a < b then true else if b < a then false else charListLT as bs

/-- Python string comparison: lexicographic, non-strict. -/
def strLE (a b : String) : Bool := charListLT a.data b.data || a.data == b.data

/-- Python string comparison: lexicographic, strict. -/
def strLT (a b : String) : Bool := charListLT a.data b.data

/-- The sort key of processors.py line 86, `lambda x: (x == EMPTY_POSITION_ID, x)`,
as a comparator: tuples compare lexicographically with `False < True`, so all
non-sentinel ids come first in ascending order and the sentinel id last. -/
def posLE (a b : Int) : Bool :=
  if (a == EMPTY_POSITION_ID) == (b == EMPTY_POSITION_ID) then a ≤ b
  else b == EMPTY_POSITION_ID

/-! ## The aggregation loop (processors.py lines 54–80) -/

/-- The mutable state of the loop: `dates` is the set of seen date strings
(as an insertion-ordered duplicate-free list), `worker_date` and
`position_date` are the two nested `dict`s (total maps defaulting to `0`,
mirroring `.get(date, 0)`), and `position_worker` is the
`defaultdict(set)` as an association list whose keys are in insertion order and
whose values are insertion-ordered duplicate-free lists. -/
structure AggState where
  dates : List String
  worker_date : Int → String → Int
  position_worker : List (Int × List Int)
  position_date : Int → String → Int

/-- The loop's initial state (lines 54–57). -/
def initState : AggState where
  dates := []
  worker_date := fun _ _ => 0
  position_worker := []
  position_date := fun _ _ => 0

/-- `dates.add(date)`: add to a set, represented as append-if-absent. -/
def insertDedup (l : List String) (d : String) : List String :=
  if d ∈ l then l else l ++ [d]

/-- `m[k1][k2] = m[k1].get(k2, 0) + v` on a nested dict modelled as a total map. -/
def bump (m : Int → String → Int) (k1 : Int) (k2 : String) (v : Int) : Int → String → Int :=
  fun a b => if a = k1 ∧ b = k2 then m a b + v else m a b

/-- `position_worker[p].add(w)` on the `defaultdict(set)`: the key is created on
first access; the set add keeps one copy of each worker id.  Python's set
iteration order is implementation-defined; this embedding fixes it to insertion
order, and no claim below depends on the order of workers inside one group
beyond concrete inputs on which CPython produces this same order. -/
def pwAdd (pw : List (Int × List Int)) (p w : Int) : List (Int × List Int) :=
  match pw with
  | [] => [(p, [w])]
  | (q, ws) :: rest =>
    if q = p then (q, if w ∈ ws then ws else ws ++ [w]) :: rest
    else (q, ws) :: pwAdd rest p w

/-- `position_worker[p]` read back (empty when the key is absent). -/
def pwLookup (pw : List (Int × List Int)) (p : Int) : List Int :=
  match pw.find? (fun e => e.1 == p) with
  | some e => e.2
  | none => []

/-- The keys of the `position_worker` dict, in insertion order. -/
def pwKeys (pw : List (Int × List Int)) : List Int := pw.map Prod.fst

/-- The per-assignment fields the loop body reads once the task is resolved:
the worker id, the task's date and duration, and the effective position id
(the task's `position_id`, or the sentinel when it is null). -/
structure RAssign where
  wid : Int
  date : String
  dur : Int
  pos : Int
deriving DecidableEq

/-- Resolve one assignment (lines 60–68): look the task up by `task_id`; a
missing task makes the Python body die on `None["date"]` (a `TypeError`, turned
into `ScheduleProcessorError` by the blanket handler). -/
def resolveA (dl : DataLoader) (a : Assignment) : Except String RAssign :=
  match get_task_by_id dl a.task_id with
  | none => .error "assignment references a task id with no task"
  | some task => .ok ⟨a.worker_id, task.date, task.duration, task.position_id.getD EMPTY_POSITION_ID⟩

/-- Apply one resolved assignment to the state (lines 71–80). -/
def applyR (st : AggState) (r : RAssign) : AggState where
  dates := insertDedup st.dates r.date
  worker_date := bump st.worker_date r.wid r.date r.dur
  position_worker := pwAdd st.position_worker r.pos r.wid
  position_date := bump st.position_date r.pos r.date r.dur

/-- One iteration of `for assignment in assignments` (lines 59–80). -/
def procAssign (dl : DataLoader) (st : AggState) (a : Assignment) : Except String AggState :=
  match get_task_by_id dl a.task_id with
  | none => .error "assignment references a task id with no task"
  | some task =>
    .ok (applyR st ⟨a.worker_id, task.date, task.duration, task.position_id.getD EMPTY_POSITION_ID⟩)

/-- The whole aggregation loop over the assignment list. -/
def runAgg (dl : DataLoader) : Except String AggState :=
  dl.assignments.foldlM (procAssign dl) initState

/-! ## Row assembly and the full processor (processors.py lines 82–106) -/

/-- The returned structure `{"columns": ..., "rows": ...}`; a row is a name
followed by one integer per date column. -/
structure ScheduleTable where
  columns : List String
  rows : List (String × List Int)
deriving DecidableEq

/-- Emit the worker row for `wid` (lines 99–102): resolve the worker's name (a
missing worker dies on `None["name"]`) and read `worker_date[wid].get(date, 0)`
for each date. -/
def buildWorkerRow (dl : DataLoader) (st : AggState) (dates : List String) (wid : Int) :
    Except String (String × List Int) :=
  match get_worker_by_id dl wid with
  | none => .error "worker row references a worker id with no worker"
  | some w => .ok (w.name, dates.map (fun d => st.worker_date wid d))

/-- Emit one position group (lines 88–102): the position row (name resolved
through the sentinel check of lines 90–93) followed by the rows of the workers
recorded for that position. -/
def buildGroup (dl : DataLoader) (st : AggState) (dates : List String) (pid : Int) :
    Except String (List (String × List Int)) := do
  let name ←
    if pid = EMPTY_POSITION_ID then pure EMPTY_POSITION_NAME
    else
      match get_position_by_id dl pid with
      | none => Except.error "position row references a position id with no position"
      | some p => pure p.name
  let wrows ← (pwLookup st.position_worker pid).mapM (buildWorkerRow dl st dates)
  pure ((name, dates.map (fun d => st.position_date pid d)) :: wrows)

/-- The `for position_id in sorted_positions` loop (lines 88–102), which appends
each group's rows to `schedule` in order. -/
def buildRows (dl : DataLoader) (st : AggState) (dates : List String) :
    List Int → Except String (List (String × List Int))
  | [] => pure []
  | p :: ps => do
    let g ← buildGroup dl st dates p
    let rest ← buildRows dl st dates ps
    pure (g ++ rest)

/-- `ScheduleDataProcessor.process_schedule_data` (lines 42–106): run the
aggregation loop, sort the dates (`sorted(dates)`, lexicographic on the date
strings) and the position ids (line 86), assemble the rows, format the date
columns, and prepend `"Name"` unless no row was produced.  Any exception along
the way is re-raised as `ScheduleProcessorError`, so the whole computation
fails atomically: `.error` carries no partial table. -/
def process_schedule_data (dl : DataLoader) : Except String ScheduleTable := do
  let st ← runAgg dl
  let dates := sortBy strLE st.dates
  let sorted_positions := sortBy posLE (pwKeys st.position_worker)
  let schedule ← buildRows dl st dates sorted_positions
  let formatted_dates ← dates.mapM format_date
  let columns := if schedule.length > 0 then "Name" :: formatted_dates else []
  pure { columns := columns, rows := schedule }

/-! ## Lemmas about the insertion sort -/

theorem perm_insertSorted (le : α → α → Bool) (x : α) :
    ∀ l : List α, (insertSorted le x l).Perm (x :: l) := by
  intro l
  induction l with
  | nil => simp [insertSorted]
  | cons y ys ih =>
    by_cases h : le x y
    · simp [insertSorted, h]
    · simp only [insertSorted, h, if_false]
      exact (ih.cons y).trans (List.Perm.swap x y ys)

theorem perm_sortBy (le : α → α → Bool) :
    ∀ l : List α, (sortBy le l).Perm l := by
  intro l
  induction l with
  | nil => simp [sortBy]
  | cons x xs ih =>
    have : sortBy le (x :: xs) = insertSorted le x (sortBy le xs) := rfl
    rw [this]
    exact (perm_insertSorted le x (sortBy le xs)).trans (ih.cons x)

theorem mem_sortBy (le : α → α → Bool) (l : List α) (a : α) :
    a ∈ sortBy le l ↔ a ∈ l :=
  (perm_sortBy le l).mem_iff

theorem nodup_sortBy (le : α → α → Bool) (l : List α) (h : l.Nodup) :
    (sortBy le l).Nodup :=
  (perm_sortBy le l).nodup_iff.mpr h

theorem mem_insertSorted (le : α → α → Bool) (x : α) (l : List α) (a : α) :
    a ∈ insertSorted le x l ↔ a = x ∨ a ∈ l := by
  rw [(perm_insertSorted le x l).mem_iff]
  simp

theorem pairwise_insertSorted (le : α → α → Bool)
    (total : ∀ a b, le a b = true ∨ le b a = true)
    (trans : ∀ a b c, le a b = true → le b c = true → le a c = true) (x : α) (l : List α)
    (h : l.Pairwise (fun a b => le a b = true)) :
    (insertSorted le x l).Pairwise (fun a b => le a b = true) := by
  induction l with
  | nil => simp [insertSorted]
  | cons y ys ih =>
    rw [List.pairwise_cons] at h
    obtain ⟨hy, hys⟩ := h
    by_cases hxy : le x y
    · simp only [insertSorted, hxy, if_true]
      refine List.Pairwise.cons ?_ (List.Pairwise.cons hy hys)
      intro b hb
      rcases List.mem_cons.mp hb with rfl | hb'
      · exact hxy
      · exact trans x y b hxy (hy b hb')
    · simp only [insertSorted, hxy, if_false]
      refine List.Pairwise.cons ?_ (ih hys)
      intro b hb
      rcases (mem_insertSorted le x ys b).mp hb with rfl | hb'
      · rcases total b y with htot | htot
        · exact absurd htot hxy
        · exact htot
      · exact hy b hb'

theorem pairwise_sortBy (le : α → α → Bool)
    (total : ∀ a b, le a b = true ∨ le b a = true)
    (trans : ∀ a b c, le a b = true → le b c = true → le a c = true) (l : List α) :
    (sortBy le l).Pairwise (fun a b => le a b = true) := by
  induction l with
  | nil => simp [sortBy]
  | cons x xs ih => exact pairwise_insertSorted le total trans x (sortBy le xs) ih

/-! ## Lemmas about the comparators -/

theorem charListLT_irrefl : ∀ l : List Char, charListLT l l = false := by
  intro l
  induction l with
  | nil => rfl
  | cons a as ih => simp [charListLT, lt_irrefl, ih]

theorem charListLT_trichotomy :
    ∀ la lb : List Char, charListLT la lb = true ∨ la = lb ∨ charListLT lb la = true := by
  intro la
  induction la with
  | nil =>
    intro lb
    cases lb with
    | nil => right; left; rfl
    | cons b bs => left; rfl
  | cons a as ih =>
    intro lb
    cases lb with
    | nil => right; right; rfl
    | cons b bs =>
      rcases lt_trichotomy a b with hab | hab | hab
      · left; simp [charListLT, hab]
      · subst hab
        rcases ih bs with h | h | h
        · left; simp [charListLT, lt_irrefl, h]
        · right; left; rw [h]
        · right; right; simp [charListLT, lt_irrefl, h]
      · right; right; simp [charListLT, hab]

theorem charListLT_trans :
    ∀ la lb lc : List Char, charListLT la lb = true → charListLT lb lc = true →
      charListLT la lc = true := by
  intro la
  induction la with
  | nil =>
    intro lb lc h₁ h₂
    cases lb with
    | nil => exact h₂
    | cons b bs =>
      cases lc with
      | nil => simp [charListLT] at h₂
      | cons c cs => rfl
  | cons a as ih =>
    intro lb lc h₁ h₂
    cases lb with
    | nil => simp [charListLT] at h₁
    | cons b bs =>
      cases lc with
      | nil => simp [charListLT] at h₂
      | cons c cs =>
        simp only [charListLT] at h₁ h₂ ⊢
        by_cases hab : a < b
        · by_cases hbc : b < c
          · simp [lt_trans hab hbc]
          · by_cases hcb : c < b
            · simp [hbc, hcb] at h₂
            · have hbc' : b = c := le_antisymm (not_lt.mp hcb) (not_lt.mp hbc)
              subst hbc'
              simp [hab]
        · by_cases hba : b < a
          · simp [hab, hba] at h₁
          · have hab' : a = b := le_antisymm (not_lt.mp hba) (not_lt.mp hab)
            subst hab'
            simp only [lt_irrefl, if_neg, if_false] at h₁
            by_cases hac : a < c
            · simp [hac]
            · by_cases hca : c < a
              · simp [hac, hca] at h₂
              · simp only [hac, hca, if_false] at h₂ ⊢
                exact ih bs cs h₁ h₂

theorem charListLT_asymm (la lb : List Char) (h : charListLT la lb = true) :
    charListLT lb la = false := by
  by_contra hc
  have h2 : charListLT lb la = true := by
    cases hcase : charListLT lb la
    · exact absurd hcase hc
    · rfl
  have := charListLT_trans la lb la h h2
  rw [charListLT_irrefl] at this
  exact Bool.false_ne_true this

theorem strLE_total (a b : String) : strLE a b = true ∨ strLE b a = true := by
  unfold strLE
  rcases charListLT_trichotomy a.data b.data with h | h | h
  · left; simp [h]
  · left; simp [h]
  · right; simp [h]

theorem strLE_trans (a b c : String) (h₁ : strLE a b = true) (h₂ : strLE b c = true) :
    strLE a c = true := by
  unfold strLE at h₁ h₂ ⊢
  rcases Bool.or_eq_true_iff.mp h₁ with h₁ | h₁ <;>
    rcases Bool.or_eq_true_iff.mp h₂ with h₂ | h₂
  · simp [charListLT_trans _ _ _ h₁ h₂]
  · rw [eq_of_beq h₂] at h₁; simp [h₁]
  · rw [eq_of_beq h₁]; simp [h₂]
  · rw [eq_of_beq h₁, eq_of_beq h₂]; simp

theorem strLT_of_strLE_of_ne (a b : String) (h : strLE a b = true) (hne : a ≠ b) :
    strLT a b = true := by
  unfold strLE at h
  rcases Bool.or_eq_true_iff.mp h with h | h
  · exact h
  · exact absurd (String.ext (eq_of_beq h)) hne

/-- Unfolding of the position comparator into propositional form. -/
theorem posLE_iff (a b : Int) :
    posLE a b = true ↔ (((a = EMPTY_POSITION_ID) ↔ (b = EMPTY_POSITION_ID)) ∧ a ≤ b)
      ∨ (a ≠ EMPTY_POSITION_ID ∧ b = EMPTY_POSITION_ID) := by
  unfold posLE
  by_cases ha : a = EMPTY_POSITION_ID <;> by_cases hb : b = EMPTY_POSITION_ID <;>
    simp [ha, hb]

theorem posLE_total (a b : Int) : posLE a b = true ∨ posLE b a = true := by
  rw [posLE_iff, posLE_iff]
  by_cases ha : a = EMPTY_POSITION_ID <;> by_cases hb : b = EMPTY_POSITION_ID <;>
    simp [ha, hb, Int.le_total a b]

theorem posLE_trans (a b c : Int) (h₁ : posLE a b = true) (h₂ : posLE b c = true) :
    posLE a c = true := by
  rw [posLE_iff] at h₁ h₂ ⊢
  rcases h₁ with ⟨hiff₁, hle₁⟩ | ⟨hne₁, hb₁⟩
  · rcases h₂ with ⟨hiff₂, hle₂⟩ | ⟨hne₂, hc₂⟩
    · exact Or.inl ⟨hiff₁.trans hiff₂, le_trans hle₁ hle₂⟩
    · refine Or.inr ⟨fun ha => hne₂ (hiff₁.mp ha), hc₂⟩
  · rcases h₂ with ⟨hiff₂, hle₂⟩ | ⟨hne₂, hc₂⟩
    · exact Or.inr ⟨hne₁, hiff₂.mp hb₁⟩
    · exact absurd hb₁ hne₂

/-- For the sentinel-last property: no non-sentinel id follows the sentinel. -/
theorem posLE_sentinel_left (b : Int) (h : posLE EMPTY_POSITION_ID b = true) :
    b = EMPTY_POSITION_ID := by
  rw [posLE_iff] at h
  rcases h with ⟨hiff, _⟩ | ⟨hne, _⟩
  · exact hiff.mp rfl
  · exact absurd rfl hne

/-- On non-sentinel ids the position comparator is numeric `≤`. -/
theorem posLE_real (a b : Int) (ha : a ≠ EMPTY_POSITION_ID) (hb : b ≠ EMPTY_POSITION_ID) :
    posLE a b = true ↔ a ≤ b := by
  rw [posLE_iff]
  simp [ha, hb]

/-! ## Lemmas about the aggregation loop -/

/-- The resolved fields of an assignment whose task lookup succeeds
(the `none` branch is never reached under a success hypothesis). -/
def resolveD (dl : DataLoader) (a : Assignment) : RAssign :=
  match get_task_by_id dl a.task_id with
  | none => ⟨a.worker_id, "", 0, 0⟩
  | some task => ⟨a.worker_id, task.date, task.duration, task.position_id.getD EMPTY_POSITION_ID⟩

theorem resolveA_eq_ok (dl : DataLoader) (a : Assignment)
    (h : (get_task_by_id dl a.task_id).isSome) : resolveA dl a = .ok (resolveD dl a) := by
  unfold resolveA resolveD
  cases hc : get_task_by_id dl a.task_id with
  | none => rw [hc] at h; simp at h
  | some t => rfl

theorem mapM_resolveA_ok (dl : DataLoader) :
    ∀ l : List Assignment, (∀ a ∈ l, (get_task_by_id dl a.task_id).isSome) →
      l.mapM (resolveA dl) = .ok (l.map (resolveD dl)) := by
  intro l
  induction l with
  | nil => intro _; rfl
  | cons a l ih =>
    intro h
    rw [List.mapM_cons, resolveA_eq_ok dl a (h a (List.mem_cons_self a l)),
      ih (fun b hb => h b (List.mem_cons_of_mem a hb))]
    rfl

theorem mapM_ok_mem {ε α β : Type} (f : α → Except ε β) :
    ∀ (l : List α) (rl : List β), l.mapM f = .ok rl → ∀ a ∈ l, ∃ b, f a = .ok b := by
  intro l
  induction l with
  | nil => intro rl _ a ha; simp at ha
  | cons x l ih =>
    intro rl h a ha
    rw [List.mapM_cons] at h
    cases hx : f x with
    | error e => rw [hx] at h; simp [Bind.bind, Except.bind] at h
    | ok b =>
      rw [hx] at h
      cases hl : l.mapM f with
      | error e => rw [hl] at h; simp [Bind.bind, Except.bind, Pure.pure, Except.pure] at h
      | ok bs =>
        rcases List.mem_cons.mp ha with rfl | ha'
        · exact ⟨b, hx⟩
        · exact ih bs hl a ha'

theorem foldlM_procAssign (dl : DataLoader) :
    ∀ (l : List Assignment) (st0 : AggState),
      l.foldlM (procAssign dl) st0 =
        (l.mapM (resolveA dl)).map (fun rl => rl.foldl applyR st0) := by
  intro l
  induction l with
  | nil => intro st0; rfl
  | cons a l ih =>
    intro st0
    rw [List.foldlM_cons, List.mapM_cons]
    cases hc : get_task_by_id dl a.task_id with
    | none =>
      have h1 : procAssign dl st0 a = .error "assignment references a task id with no task" := by
        unfold procAssign; rw [hc]
      have h2 : resolveA dl a = .error "assignment references a task id with no task" := by
        unfold resolveA; rw [hc]
      rw [h1, h2]
      rfl
    | some t =>
      have h1 : procAssign dl st0 a =
          .ok (applyR st0 ⟨a.worker_id, t.date, t.duration, t.position_id.getD EMPTY_POSITION_ID⟩) := by
        unfold procAssign; rw [hc]
      have h2 : resolveA dl a =
          .ok ⟨a.worker_id, t.date, t.duration, t.position_id.getD EMPTY_POSITION_ID⟩ := by
        unfold resolveA; rw [hc]
      rw [h1, h2]
      show l.foldlM (procAssign dl)
          (applyR st0 ⟨a.worker_id, t.date, t.duration, t.position_id.getD EMPTY_POSITION_ID⟩) = _
      rw [ih]
      cases hl : l.mapM (resolveA dl) with
      | error e => rfl
      | ok rl => rfl

/-- Success/shape characterization of the aggregation loop: it succeeds exactly
when every assignment's task resolves, and then the final state is the pure
fold of the resolved assignments. -/
theorem runAgg_ok_iff (dl : DataLoader) (st : AggState) :
    runAgg dl = .ok st ↔
      (∀ a ∈ dl.assignments, (get_task_by_id dl a.task_id).isSome) ∧
        st = (dl.assignments.map (resolveD dl)).foldl applyR initState := by
  constructor
  · intro h
    unfold runAgg at h
    rw [foldlM_procAssign] at h
    cases hm : dl.assignments.mapM (resolveA dl) with
    | error e => rw [hm] at h; simp [Except.map] at h
    | ok rl =>
      rw [hm] at h
      simp only [Except.map, Except.ok.injEq] at h
      have hsome : ∀ a ∈ dl.assignments, (get_task_by_id dl a.task_id).isSome := by
        intro a ha
        obtain ⟨b, hb⟩ := mapM_ok_mem (resolveA dl) dl.assignments rl hm a ha
        unfold resolveA at hb
        cases hc : get_task_by_id dl a.task_id with
        | none => rw [hc] at hb; simp at hb
        | some t => rfl
      refine ⟨hsome, ?_⟩
      have := mapM_resolveA_ok dl dl.assignments hsome
      rw [hm] at this
      injection this with this'
      rw [← h, this']
  · rintro ⟨hsome, rfl⟩
    unfold runAgg
    rw [foldlM_procAssign, mapM_resolveA_ok dl dl.assignments hsome]
    rfl

/-! ### Pure-fold characterizations of the state fields -/

theorem worker_date_foldl :
    ∀ (rl : List RAssign) (st0 : AggState) (w : Int) (d : String),
      (rl.foldl applyR st0).worker_date w d =
        st0.worker_date w d +
          ((rl.filter (fun r => r.wid == w && r.date == d)).map RAssign.dur).sum := by
  intro rl
  induction rl with
  | nil => intro st0 w d; simp
  | cons r rl ih =>
    intro st0 w d
    rw [List.foldl_cons, ih]
    show bump st0.worker_date r.wid r.date r.dur w d + _ = _
    unfold bump
    by_cases hw : w = r.wid ∧ d = r.date
    · obtain ⟨rfl, rfl⟩ := hw
      rw [List.filter_cons_of_pos (by simp)]
      rw [if_pos (And.intro rfl rfl)]
      simp only [List.map_cons, List.sum_cons]
      omega
    · have hbeq : (r.wid == w && r.date == d) = false := by
        rw [Bool.and_eq_false_iff]
        by_cases h1 : r.wid = w
        · right
          rw [beq_eq_false_iff_ne]
          intro h2
          exact hw ⟨h1.symm, h2.symm⟩
        · left
          rw [beq_eq_false_iff_ne]
          exact h1
      rw [List.filter_cons_of_neg (by simp [hbeq]), if_neg hw]

theorem position_date_foldl :
    ∀ (rl : List RAssign) (st0 : AggState) (p : Int) (d : String),
      (rl.foldl applyR st0).position_date p d =
        st0.position_date p d +
          ((rl.filter (fun r => r.pos == p && r.date == d)).map RAssign.dur).sum := by
  intro rl
  induction rl with
  | nil => intro st0 p d; simp
  | cons r rl ih =>
    intro st0 p d
    rw [List.foldl_cons, ih]
    show bump st0.position_date r.pos r.date r.dur p d + _ = _
    unfold bump
    by_cases hp : p = r.pos ∧ d = r.date
    · obtain ⟨rfl, rfl⟩ := hp
      rw [List.filter_cons_of_pos (by simp)]
      rw [if_pos (And.intro rfl rfl)]
      simp only [List.map_cons, List.sum_cons]
      omega
    · have hbeq : (r.pos == p && r.date == d) = false := by
        rw [Bool.and_eq_false_iff]
        by_cases h1 : r.pos = p
        · right
          rw [beq_eq_false_iff_ne]
          intro h2
          exact hp ⟨h1.symm, h2.symm⟩
        · left
          rw [beq_eq_false_iff_ne]
          exact h1
      rw [List.filter_cons_of_neg (by simp [hbeq]), if_neg hp]

theorem mem_insertDedup (l : List String) (x d : String) :
    d ∈ insertDedup l x ↔ d ∈ l ∨ d = x := by
  unfold insertDedup
  by_cases h : x ∈ l
  · simp only [h, if_true]
    constructor
    · exact Or.inl
    · rintro (hd | rfl)
      · exact hd
      · exact h
  · simp [h]

theorem nodup_append_singleton {α : Type} (l : List α) (x : α) (h : l.Nodup) (hx : x ∉ l) :
    (l ++ [x]).Nodup := by
  rw [List.nodup_append]
  exact ⟨h, List.nodup_singleton x, fun a ha hax => hx (by rwa [List.mem_singleton.mp hax] at ha)⟩

theorem nodup_insertDedup (l : List String) (x : String) (h : l.Nodup) :
    (insertDedup l x).Nodup := by
  unfold insertDedup
  by_cases hx : x ∈ l
  · simpa [hx]
  · rw [if_neg hx]
    exact nodup_append_singleton l x h hx

theorem dates_foldl_mem :
    ∀ (rl : List RAssign) (st0 : AggState) (d : String),
      d ∈ (rl.foldl applyR st0).dates ↔ d ∈ st0.dates ∨ ∃ r ∈ rl, r.date = d := by
  intro rl
  induction rl with
  | nil => intro st0 d; simp
  | cons r rl ih =>
    intro st0 d
    rw [List.foldl_cons, ih]
    show _ ∈ insertDedup st0.dates r.date ∨ _ ↔ _
    rw [mem_insertDedup]
    constructor
    · rintro ((hd | rfl) | ⟨r', hr', hd'⟩)
      · exact Or.inl hd
      · exact Or.inr ⟨r, List.mem_cons_self r rl, rfl⟩
      · exact Or.inr ⟨r', List.mem_cons_of_mem r hr', hd'⟩
    · rintro (hd | ⟨r', hr', hd'⟩)
      · exact Or.inl (Or.inl hd)
      · rcases List.mem_cons.mp hr' with rfl | hr''
        · exact Or.inl (Or.inr hd'.symm)
        · exact Or.inr ⟨r', hr'', hd'⟩

theorem dates_foldl_nodup :
    ∀ (rl : List RAssign) (st0 : AggState), st0.dates.Nodup → (rl.foldl applyR st0).dates.Nodup := by
  intro rl
  induction rl with
  | nil => intro st0 h; exact h
  | cons r rl ih =>
    intro st0 h
    rw [List.foldl_cons]
    exact ih _ (nodup_insertDedup st0.dates r.date h)

/-! ### Lemmas about the `position_worker` association list -/

theorem pwLookup_cons (k : Int) (ws : List Int) (rest : List (Int × List Int)) (q : Int) :
    pwLookup ((k, ws) :: rest) q = if k = q then ws else pwLookup rest q := by
  unfold pwLookup
  by_cases h : k = q
  · rw [List.find?_cons_of_pos _ (by simpa using h), if_pos h]
  · rw [List.find?_cons_of_neg _ (by simpa using h), if_neg h]

theorem pwAdd_cons_hit (k : Int) (ws : List Int) (rest : List (Int × List Int)) (w : Int)
    (h : k = p) : pwAdd ((k, ws) :: rest) p w = (k, if w ∈ ws then ws else ws ++ [w]) :: rest := by
  have he : pwAdd ((k, ws) :: rest) p w =
      if k = p then (k, if w ∈ ws then ws else ws ++ [w]) :: rest
      else (k, ws) :: pwAdd rest p w := rfl
  rw [he, if_pos h]

theorem pwAdd_cons_miss (k : Int) (ws : List Int) (rest : List (Int × List Int)) (w : Int)
    (h : ¬ k = p) : pwAdd ((k, ws) :: rest) p w = (k, ws) :: pwAdd rest p w := by
  have he : pwAdd ((k, ws) :: rest) p w =
      if k = p then (k, if w ∈ ws then ws else ws ++ [w]) :: rest
      else (k, ws) :: pwAdd rest p w := rfl
  rw [he, if_neg h]

theorem pwLookup_pwAdd (pw : List (Int × List Int)) (p w : Int) :
    ∀ q, pwLookup (pwAdd pw p w) q =
      if q = p then
        (if w ∈ pwLookup pw p then pwLookup pw p else pwLookup pw p ++ [w])
      else pwLookup pw q := by
  induction pw with
  | nil =>
    intro q
    show pwLookup [(p, [w])] q = _
    rw [pwLookup_cons]
    by_cases hq : q = p
    · subst hq
      simp [pwLookup, List.find?]
    · rw [if_neg (fun h => hq h.symm), if_neg hq]
  | cons e rest ih =>
    obtain ⟨k, ws⟩ := e
    intro q
    by_cases hk : k = p
    · subst hk
      rw [pwAdd_cons_hit k ws rest w rfl, pwLookup_cons, pwLookup_cons k ws rest q,
        pwLookup_cons k ws rest k, if_pos rfl]
      by_cases hq : k = q
      · subst hq
        rw [if_pos rfl, if_pos rfl]
      · rw [if_neg hq, if_neg (fun h => hq h.symm), if_neg hq]
    · rw [pwAdd_cons_miss k ws rest w hk, pwLookup_cons, pwLookup_cons k ws rest q,
        pwLookup_cons k ws rest p, if_neg hk]
      by_cases hq : k = q
      · subst hq
        rw [if_pos rfl, if_neg (fun h => hk h), if_pos rfl]
      · rw [if_neg hq, if_neg hq, ih q]

theorem pwKeys_cons (k : Int) (ws : List Int) (rest : List (Int × List Int)) :
    pwKeys ((k, ws) :: rest) = k :: pwKeys rest := rfl

theorem pwKeys_pwAdd (pw : List (Int × List Int)) (p w : Int) :
    pwKeys (pwAdd pw p w) = if p ∈ pwKeys pw then pwKeys pw else pwKeys pw ++ [p] := by
  induction pw with
  | nil => simp [pwAdd, pwKeys]
  | cons e rest ih =>
    obtain ⟨k, ws⟩ := e
    by_cases hk : k = p
    · subst hk
      have hm : k ∈ pwKeys ((k, ws) :: rest) := List.mem_cons_self k (pwKeys rest)
      rw [if_pos hm, pwAdd_cons_hit k ws rest w rfl, pwKeys_cons, pwKeys_cons]
    · have hmem : p ∈ pwKeys ((k, ws) :: rest) ↔ p ∈ pwKeys rest := by
        rw [pwKeys_cons, List.mem_cons]
        exact ⟨fun h => h.resolve_left (fun h' => hk h'.symm), Or.inr⟩
      by_cases hp : p ∈ pwKeys rest
      · rw [if_pos (hmem.mpr hp), pwAdd_cons_miss k ws rest w hk, pwKeys_cons, ih, if_pos hp,
          pwKeys_cons]
      · rw [if_neg (fun h => hp (hmem.mp h)), pwAdd_cons_miss k ws rest w hk, pwKeys_cons, ih,
          if_neg hp, pwKeys_cons]
        rfl

theorem pwKeys_nodup_pwAdd (pw : List (Int × List Int)) (p w : Int) (h : (pwKeys pw).Nodup) :
    (pwKeys (pwAdd pw p w)).Nodup := by
  rw [pwKeys_pwAdd]
  by_cases hp : p ∈ pwKeys pw
  · simpa [hp]
  · rw [if_neg hp]
    exact nodup_append_singleton _ p h hp

theorem pwLookup_nodup_pwAdd (pw : List (Int × List Int)) (p w : Int)
    (h : ∀ q, (pwLookup pw q).Nodup) : ∀ q, (pwLookup (pwAdd pw p w) q).Nodup := by
  intro q
  rw [pwLookup_pwAdd]
  by_cases hq : q = p
  · subst hq
    by_cases hw : w ∈ pwLookup pw q
    · simpa [hw] using h q
    · rw [if_pos rfl, if_neg hw]
      exact nodup_append_singleton _ w (h q) hw
  · simp [hq, h q]

theorem mem_pwLookup_pwAdd (pw : List (Int × List Int)) (p w q v : Int) :
    v ∈ pwLookup (pwAdd pw p w) q ↔ v ∈ pwLookup pw q ∨ (q = p ∧ v = w) := by
  rw [pwLookup_pwAdd]
  by_cases hq : q = p
  · subst hq
    rw [if_pos rfl]
    by_cases hw : w ∈ pwLookup pw q
    · rw [if_pos hw]
      exact ⟨Or.inl, fun h => h.elim id (fun hvw => hvw.2 ▸ hw)⟩
    · rw [if_neg hw]
      simp
  · rw [if_neg hq]
    simp [hq]

theorem mem_pwKeys_pwAdd (pw : List (Int × List Int)) (p w q : Int) :
    q ∈ pwKeys (pwAdd pw p w) ↔ q ∈ pwKeys pw ∨ q = p := by
  rw [pwKeys_pwAdd]
  by_cases hp : p ∈ pwKeys pw
  · rw [if_pos hp]
    exact ⟨Or.inl, fun h => h.elim id (fun hq => hq ▸ hp)⟩
  · rw [if_neg hp]
    simp

theorem mem_pwKeys_of_pwLookup (pw : List (Int × List Int)) (q v : Int)
    (h : v ∈ pwLookup pw q) : q ∈ pwKeys pw := by
  unfold pwLookup at h
  cases hf : pw.find? (fun e => e.1 == q) with
  | none => rw [hf] at h; simp at h
  | some e =>
    have hmem := List.mem_of_find?_eq_some hf
    have hq : e.1 = q := by
      have := List.find?_some hf
      simpa using this
    exact hq ▸ List.mem_map_of_mem Prod.fst hmem

/-! ### Fold-level lemmas for `position_worker` -/

theorem pw_foldl_mem :
    ∀ (rl : List RAssign) (st0 : AggState) (p v : Int),
      v ∈ pwLookup (rl.foldl applyR st0).position_worker p ↔
        v ∈ pwLookup st0.position_worker p ∨ ∃ r ∈ rl, r.pos = p ∧ r.wid = v := by
  intro rl
  induction rl with
  | nil => intro st0 p v; simp
  | cons r rl ih =>
    intro st0 p v
    rw [List.foldl_cons, ih]
    show v ∈ pwLookup (pwAdd st0.position_worker r.pos r.wid) p ∨ _ ↔ _
    rw [mem_pwLookup_pwAdd]
    constructor
    · rintro ((hv | ⟨rfl, rfl⟩) | ⟨r', hr', hp', hv'⟩)
      · exact Or.inl hv
      · exact Or.inr ⟨r, List.mem_cons_self r rl, rfl, rfl⟩
      · exact Or.inr ⟨r', List.mem_cons_of_mem r hr', hp', hv'⟩
    · rintro (hv | ⟨r', hr', hp', hv'⟩)
      · exact Or.inl (Or.inl hv)
      · rcases List.mem_cons.mp hr' with rfl | hr''
        · exact Or.inl (Or.inr ⟨hp'.symm, hv'.symm⟩)
        · exact Or.inr ⟨r', hr'', hp', hv'⟩

theorem pwKeys_foldl_mem :
    ∀ (rl : List RAssign) (st0 : AggState) (p : Int),
      p ∈ pwKeys (rl.foldl applyR st0).position_worker ↔
        p ∈ pwKeys st0.position_worker ∨ ∃ r ∈ rl, r.pos = p := by
  intro rl
  induction rl with
  | nil => intro st0 p; simp
  | cons r rl ih =>
    intro st0 p
    rw [List.foldl_cons, ih]
    show p ∈ pwKeys (pwAdd st0.position_worker r.pos r.wid) ∨ _ ↔ _
    rw [mem_pwKeys_pwAdd]
    constructor
    · rintro ((hp | rfl) | ⟨r', hr', hp'⟩)
      · exact Or.inl hp
      · exact Or.inr ⟨r, List.mem_cons_self r rl, rfl⟩
      · exact Or.inr ⟨r', List.mem_cons_of_mem r hr', hp'⟩
    · rintro (hp | ⟨r', hr', hp'⟩)
      · exact Or.inl (Or.inl hp)
      · rcases List.mem_cons.mp hr' with rfl | hr''
        · exact Or.inl (Or.inr hp'.symm)
        · exact Or.inr ⟨r', hr'', hp'⟩

theorem pwKeys_foldl_nodup :
    ∀ (rl : List RAssign) (st0 : AggState), (pwKeys st0.position_worker).Nodup →
      (pwKeys (rl.foldl applyR st0).position_worker).Nodup := by
  intro rl
  induction rl with
  | nil => intro st0 h; exact h
  | cons r rl ih =>
    intro st0 h
    rw [List.foldl_cons]
    exact ih _ (pwKeys_nodup_pwAdd st0.position_worker r.pos r.wid h)

theorem pwLookup_foldl_nodup :
    ∀ (rl : List RAssign) (st0 : AggState), (∀ q, (pwLookup st0.position_worker q).Nodup) →
      ∀ q, (pwLookup (rl.foldl applyR st0).position_worker q).Nodup := by
  intro rl
  induction rl with
  | nil => intro st0 h; exact h
  | cons r rl ih =>
    intro st0 h
    rw [List.foldl_cons]
    exact ih _ (pwLookup_nodup_pwAdd st0.position_worker r.pos r.wid h)

/-! ### Lemmas about row assembly -/

theorem mapM_mem_of_ok {ε α β : Type} (f : α → Except ε β) :
    ∀ (l : List α) (bl : List β), l.mapM f = .ok bl →
      ∀ a ∈ l, ∀ b, f a = .ok b → b ∈ bl := by
  intro l
  induction l with
  | nil => intro bl _ a ha; simp at ha
  | cons x l ih =>
    intro bl h a ha b hb
    rw [List.mapM_cons] at h
    cases hx : f x with
    | error e => rw [hx] at h; simp [Bind.bind, Except.bind] at h
    | ok bx =>
      rw [hx] at h
      cases hl : l.mapM f with
      | error e => rw [hl] at h; simp [Bind.bind, Except.bind, Pure.pure, Except.pure] at h
      | ok bs =>
        rw [hl] at h
        have hcons : Except.ok (ε := ε) (bx :: bs) = Except.ok bl := h
        injection hcons with hcons'
        subst hcons'
        rcases List.mem_cons.mp ha with rfl | ha'
        · rw [hx] at hb
          injection hb with hb'
          exact hb' ▸ List.mem_cons_self bx bs
        · exact List.mem_cons_of_mem bx (ih bs hl a ha' b hb)

theorem mapM_ok_forall₂ {ε α β : Type} (f : α → Except ε β) :
    ∀ (l : List α) (bl : List β), l.mapM f = .ok bl →
      List.Forall₂ (fun a b => f a = .ok b) l bl := by
  intro l
  induction l with
  | nil =>
    intro bl h
    have : Except.ok (ε := ε) ([] : List β) = .ok bl := h
    injection this with h'
    rw [← h']
    exact List.Forall₂.nil
  | cons x l ih =>
    intro bl h
    rw [List.mapM_cons] at h
    cases hx : f x with
    | error e => rw [hx] at h; simp [Bind.bind, Except.bind] at h
    | ok bx =>
      rw [hx] at h
      cases hl : l.mapM f with
      | error e => rw [hl] at h; simp [Bind.bind, Except.bind, Pure.pure, Except.pure] at h
      | ok bs =>
        rw [hl] at h
        have : Except.ok (ε := ε) (bx :: bs) = .ok bl := h
        injection this with h'
        rw [← h']
        exact List.Forall₂.cons hx (ih bs hl)

theorem forall₂_mem_right {α β : Type} {R : α → β → Prop} :
    ∀ {l : List α} {bl : List β}, List.Forall₂ R l bl → ∀ b ∈ bl, ∃ a ∈ l, R a b := by
  intro l bl h
  induction h with
  | nil => intro b hb; simp at hb
  | cons hr _ ih =>
    intro b hb
    rcases List.mem_cons.mp hb with rfl | hb'
    · exact ⟨_, List.mem_cons_self _ _, hr⟩
    · obtain ⟨a, ha, har⟩ := ih b hb'
      exact ⟨a, List.mem_cons_of_mem _ ha, har⟩

theorem buildGroup_ok_elim (dl : DataLoader) (st : AggState) (ds : List String) (p : Int)
    (g : List (String × List Int)) (h : buildGroup dl st ds p = .ok g) :
    ∃ name wrows,
      (if p = EMPTY_POSITION_ID then name = EMPTY_POSITION_NAME
        else ∃ po, get_position_by_id dl p = some po ∧ name = po.name) ∧
      (pwLookup st.position_worker p).mapM (buildWorkerRow dl st ds) = .ok wrows ∧
      g = (name, ds.map (fun d => st.position_date p d)) :: wrows := by
  unfold buildGroup at h
  by_cases hp : p = EMPTY_POSITION_ID
  · rw [if_pos hp] at h
    cases hm : (pwLookup st.position_worker p).mapM (buildWorkerRow dl st ds) with
    | error e => rw [hm] at h; simp [Bind.bind, Except.bind, Pure.pure, Except.pure] at h
    | ok wrows =>
      rw [hm] at h
      refine ⟨EMPTY_POSITION_NAME, wrows, by rw [if_pos hp], rfl, ?_⟩
      have : Except.ok (ε := String)
          ((EMPTY_POSITION_NAME, ds.map (fun d => st.position_date p d)) :: wrows) = .ok g := h
      injection this with h'
      exact h'.symm
  · rw [if_neg hp] at h
    cases hpos : get_position_by_id dl p with
    | none => rw [hpos] at h; simp [Bind.bind, Except.bind] at h
    | some po =>
      rw [hpos] at h
      cases hm : (pwLookup st.position_worker p).mapM (buildWorkerRow dl st ds) with
      | error e => rw [hm] at h; simp [Bind.bind, Except.bind, Pure.pure, Except.pure] at h
      | ok wrows =>
        rw [hm] at h
        refine ⟨po.name, wrows, by rw [if_neg hp]; exact ⟨po, rfl, rfl⟩, rfl, ?_⟩
        have : Except.ok (ε := String)
            ((po.name, ds.map (fun d => st.position_date p d)) :: wrows) = .ok g := h
        injection this with h'
        exact h'.symm

theorem buildRows_ok_cons (dl : DataLoader) (st : AggState) (ds : List String) (p : Int)
    (ps : List Int) (rows : List (String × List Int))
    (h : buildRows dl st ds (p :: ps) = .ok rows) :
    ∃ g rest, buildGroup dl st ds p = .ok g ∧ buildRows dl st ds ps = .ok rest ∧
      rows = g ++ rest := by
  unfold buildRows at h
  cases hg : buildGroup dl st ds p with
  | error e => rw [hg] at h; simp [Bind.bind, Except.bind] at h
  | ok g =>
    rw [hg] at h
    cases hr : buildRows dl st ds ps with
    | error e => rw [hr] at h; simp [Bind.bind, Except.bind, Pure.pure, Except.pure] at h
    | ok rest =>
      rw [hr] at h
      have : Except.ok (ε := String) (g ++ rest) = .ok rows := h
      injection this with h'
      exact ⟨g, rest, rfl, rfl, h'.symm⟩

/-- Every row emitted by the assembly loop has one value per date column. -/
theorem buildRows_row_length (dl : DataLoader) (st : AggState) (ds : List String) :
    ∀ (ps : List Int) (rows : List (String × List Int)), buildRows dl st ds ps = .ok rows →
      ∀ row ∈ rows, row.2.length = ds.length := by
  intro ps
  induction ps with
  | nil =>
    intro rows h row hrow
    have : Except.ok (ε := String) ([] : List (String × List Int)) = .ok rows := h
    injection this with h'
    rw [← h'] at hrow
    simp at hrow
  | cons p ps ih =>
    intro rows h row hrow
    obtain ⟨g, rest, hg, hr, rfl⟩ := buildRows_ok_cons dl st ds p ps rows h
    obtain ⟨name, wrows, _, hm, rfl⟩ := buildGroup_ok_elim dl st ds p g hg
    rcases List.mem_append.mp hrow with hrow | hrow
    · rcases List.mem_cons.mp hrow with rfl | hrow'
      · simp
      · obtain ⟨w, hw, hok⟩ : ∃ w ∈ pwLookup st.position_worker p,
            buildWorkerRow dl st ds w = .ok row := by
          have hall := mapM_ok_forall₂ (buildWorkerRow dl st ds) _ _ hm
          exact forall₂_mem_right hall row hrow'
        unfold buildWorkerRow at hok
        cases hwk : get_worker_by_id dl w with
        | none => rw [hwk] at hok; simp at hok
        | some wk =>
          rw [hwk] at hok
          injection hok with hok'
          rw [← hok']
          simp
    · exact ih rest hr row hrow

/-- Success of row assembly means every needed name lookup succeeded: the code
never skips a dangling worker or position reference silently. -/
theorem buildRows_ok_resolves (dl : DataLoader) (st : AggState) (ds : List String) :
    ∀ (ps : List Int) (rows : List (String × List Int)), buildRows dl st ds ps = .ok rows →
      ∀ p ∈ ps, (p ≠ EMPTY_POSITION_ID → (get_position_by_id dl p).isSome) ∧
        ∀ w ∈ pwLookup st.position_worker p, (get_worker_by_id dl w).isSome := by
  intro ps
  induction ps with
  | nil => intro rows _ p hp; simp at hp
  | cons q ps ih =>
    intro rows h p hp
    obtain ⟨g, rest, hg, hr, rfl⟩ := buildRows_ok_cons dl st ds q ps rows h
    rcases List.mem_cons.mp hp with rfl | hp'
    · obtain ⟨name, wrows, hname, hm, rfl⟩ := buildGroup_ok_elim dl st ds p g hg
      constructor
      · intro hne
        rw [if_neg hne] at hname
        obtain ⟨po, hpo, _⟩ := hname
        rw [hpo]
        rfl
      · intro w hw
        obtain ⟨row, hrow⟩ := mapM_ok_mem (buildWorkerRow dl st ds) _ wrows hm w hw
        unfold buildWorkerRow at hrow
        cases hwk : get_worker_by_id dl w with
        | none => rw [hwk] at hrow; simp at hrow
        | some wk => rfl
    · exact ih rest hr p hp'

/-- Rows of an emitted group all appear in the final row list. -/
theorem buildRows_mem_of_group (dl : DataLoader) (st : AggState) (ds : List String) :
    ∀ (ps : List Int) (rows : List (String × List Int)), buildRows dl st ds ps = .ok rows →
      ∀ p ∈ ps, ∃ g, buildGroup dl st ds p = .ok g ∧ ∀ row ∈ g, row ∈ rows := by
  intro ps
  induction ps with
  | nil => intro rows _ p hp; simp at hp
  | cons q ps ih =>
    intro rows h p hp
    obtain ⟨g, rest, hg, hr, rfl⟩ := buildRows_ok_cons dl st ds q ps rows h
    rcases List.mem_cons.mp hp with rfl | hp'
    · exact ⟨g, hg, fun row hrow => List.mem_append_left rest hrow⟩
    · obtain ⟨g', hg', hmem⟩ := ih rest hr p hp'
      exact ⟨g', hg', fun row hrow => List.mem_append_right g (hmem row hrow)⟩

/-- The worker row of `w` is emitted once under every position group that
contains `w`, so it appears at least that many times in the table. -/
theorem buildRows_count_workerRow (dl : DataLoader) (st : AggState) (ds : List String)
    (w : Int) (wk : Worker) (hw : get_worker_by_id dl w = some wk) :
    ∀ (ps : List Int) (rows : List (String × List Int)), buildRows dl st ds ps = .ok rows →
      ps.countP (fun p => decide (w ∈ pwLookup st.position_worker p)) ≤
        rows.count (wk.name, ds.map (fun d => st.worker_date w d)) := by
  intro ps
  induction ps with
  | nil =>
    intro rows h
    simp
  | cons q ps ih =>
    intro rows h
    obtain ⟨g, rest, hg, hr, rfl⟩ := buildRows_ok_cons dl st ds q ps rows h
    rw [List.countP_cons, List.count_append]
    have hrest := ih rest hr
    by_cases hwq : w ∈ pwLookup st.position_worker q
    · obtain ⟨name, wrows, _, hm, rfl⟩ := buildGroup_ok_elim dl st ds q g hg
      have hok : buildWorkerRow dl st ds w = .ok (wk.name, ds.map (fun d => st.worker_date w d)) := by
        unfold buildWorkerRow
        rw [hw]
      have hmemw : (wk.name, ds.map (fun d => st.worker_date w d)) ∈ wrows :=
        mapM_mem_of_ok (buildWorkerRow dl st ds) _ wrows hm w hwq _ hok
      have hcount : 1 ≤ ((name, ds.map (fun d => st.position_date q d)) :: wrows).count
          (wk.name, ds.map (fun d => st.worker_date w d)) := by
        rw [List.count_cons]
        have : 0 < wrows.count (wk.name, ds.map (fun d => st.worker_date w d)) :=
          List.count_pos_iff.mpr hmemw
        omega
      simp [hwq]
      omega
    · simp [hwq]
      omega

/-- A nonempty position list yields a nonempty row list. -/
theorem buildRows_ne_nil (dl : DataLoader) (st : AggState) (ds : List String) (p : Int)
    (ps : List Int) (rows : List (String × List Int))
    (h : buildRows dl st ds (p :: ps) = .ok rows) : rows ≠ [] := by
  obtain ⟨g, rest, hg, _, rfl⟩ := buildRows_ok_cons dl st ds p ps rows h
  obtain ⟨name, wrows, _, _, rfl⟩ := buildGroup_ok_elim dl st ds p g hg
  simp

/-- Inversion of the full processor on success: recover the loop state, the
assembled rows and the formatted columns. -/
theorem process_ok_elim (dl : DataLoader) (t : ScheduleTable)
    (h : process_schedule_data dl = .ok t) :
    ∃ st rows fd, runAgg dl = .ok st ∧
      buildRows dl st (sortBy strLE st.dates) (sortBy posLE (pwKeys st.position_worker)) =
        .ok rows ∧
      (sortBy strLE st.dates).mapM format_date = .ok fd ∧
      t.rows = rows ∧ t.columns = (if rows.length > 0 then "Name" :: fd else []) := by
  unfold process_schedule_data at h
  cases hst : runAgg dl with
  | error e => rw [hst] at h; simp [Bind.bind, Except.bind] at h
  | ok st =>
    rw [hst] at h
    simp only [Bind.bind, Except.bind] at h
    cases hbr : buildRows dl st (sortBy strLE st.dates) (sortBy posLE (pwKeys st.position_worker)) with
    | error e => rw [hbr] at h; simp at h
    | ok rows =>
      rw [hbr] at h
      simp only [] at h
      cases hfd : (sortBy strLE st.dates).mapM format_date with
      | error e => rw [hfd] at h; simp at h
      | ok fd =>
        rw [hfd] at h
        simp only [Pure.pure, Except.pure] at h
        injection h with h''
        subst h''
        exact ⟨st, rows, fd, rfl, hbr, hfd, rfl, rfl⟩

/-! ### Sum rearrangement lemmas -/

theorem sum_filter_or_disjoint (p q : RAssign → Bool) :
    ∀ l : List RAssign, (∀ r ∈ l, ¬(p r = true ∧ q r = true)) →
      ((l.filter (fun r => p r || q r)).map RAssign.dur).sum =
        ((l.filter p).map RAssign.dur).sum + ((l.filter q).map RAssign.dur).sum := by
  intro l
  induction l with
  | nil => intro _; simp
  | cons r l ih =>
    intro hdisj
    have hl := ih (fun r' hr' => hdisj r' (List.mem_cons_of_mem r hr'))
    by_cases hp : p r = true
    · have hq : q r = false := by
        cases hqc : q r
        · rfl
        · exact absurd ⟨hp, hqc⟩ (hdisj r (List.mem_cons_self r l))
      rw [List.filter_cons_of_pos (by simp [hp]), List.filter_cons_of_pos hp,
        List.filter_cons_of_neg (by simp [hq])]
      simp only [List.map_cons, List.sum_cons, hl]
      omega
    · have hp' : p r = false := by
        cases hpc : p r
        · rfl
        · exact absurd hpc hp
      by_cases hq : q r = true
      · rw [List.filter_cons_of_pos (by simp [hq]), List.filter_cons_of_neg (by simp [hp']),
          List.filter_cons_of_pos hq]
        simp only [List.map_cons, List.sum_cons, hl]
        omega
      · have hq' : q r = false := by
          cases hqc : q r
          · rfl
          · exact absurd hqc hq
        rw [List.filter_cons_of_neg (by simp [hp', hq']), List.filter_cons_of_neg (by simp [hp']),
          List.filter_cons_of_neg (by simp [hq'])]
        exact hl

/-- Summing a worker-indexed family of filtered sums over a duplicate-free
worker list equals one filtered sum over membership. -/
theorem sum_group (d : String) (l : List RAssign) :
    ∀ ws : List Int, ws.Nodup →
      (ws.map (fun wv => ((l.filter (fun r => r.wid == wv && r.date == d)).map RAssign.dur).sum)).sum =
        ((l.filter (fun r => decide (r.wid ∈ ws) && r.date == d)).map RAssign.dur).sum := by
  intro ws
  induction ws with
  | nil => intro _; simp
  | cons wv ws ih =>
    intro hnd
    rw [List.nodup_cons] at hnd
    obtain ⟨hwv, hnd'⟩ := hnd
    rw [List.map_cons, List.sum_cons, ih hnd']
    have hcongr : ∀ r ∈ l, (decide (r.wid ∈ wv :: ws) && r.date == d) =
        ((r.wid == wv && r.date == d) || (decide (r.wid ∈ ws) && r.date == d)) := by
      intro r _
      by_cases h1 : r.wid = wv <;> by_cases h2 : r.wid ∈ ws <;> by_cases h3 : r.date = d <;>
        simp [h1, h2, h3, List.mem_cons]
    rw [List.filter_congr hcongr, sum_filter_or_disjoint _ _ l (by
      intro r _ hab
      obtain ⟨ha, hb⟩ := hab
      rw [Bool.and_eq_true] at ha hb
      exact hwv ((beq_iff_eq.mp ha.1) ▸ (of_decide_eq_true hb.1)))]

/-! ## The HTTP view (scheduler/views.py) and the exception chain

`schedule_table` dispatches on the dynamic type of the exception raised by
`get_schedule_data` (services.py re-raises unchanged): `DataLoaderError` →
`DATA_LOAD_ERROR`, `ScheduleProcessorError` → `PROCESSING_ERROR`, anything else
→ `INTERNAL_ERROR`, all with HTTP 500; success returns the table with 200. -/

/-- The dynamic type of a raised Python exception, as the view distinguishes it. -/
inductive PyError where
  | dataLoaderError (msg : String)
  | scheduleProcessorError (msg : String)
  | otherError (msg : String)
deriving DecidableEq

/-- The response the view produces: the table on success, or the error
envelope `{error, detail, code}` (always with HTTP 500) on failure. -/
inductive ApiResponse where
  | success (data : ScheduleTable)
  | failure (err detail code : String)
deriving DecidableEq

/-- The `code` field of the envelope (`none` on success). -/
def responseCode : ApiResponse → Option String
  | .success _ => none
  | .failure _ _ c => some c

/-- `scheduler.views.schedule_table` (views.py lines 13–57). -/
def schedule_table (result : Except PyError ScheduleTable) : ApiResponse :=
  match result with
  | .ok data => .success data
  | .error (.dataLoaderError e) =>
    .failure "Failed to load data from JSON files" e "DATA_LOAD_ERROR"
  | .error (.scheduleProcessorError e) =>
    .failure "Failed to process schedule data" e "PROCESSING_ERROR"
  | .error (.otherError _) =>
    .failure "Internal server error" "An unexpected error occurred" "INTERNAL_ERROR"

/-- The whole body of `process_schedule_data` — including the lazy JSON loading
triggered by `self.data_loader.get_assignments()` (processors.py line 52) — runs
inside one `try` whose handler (lines 108–110) re-raises every exception as
`ScheduleProcessorError`.  The loading outcome is therefore an input: `.error`
stands for the `DataLoaderError` raised for a missing/unreadable/malformed JSON
file during the request. -/
def process_schedule_data_request (src : Except String DataLoader) :
    Except PyError ScheduleTable :=
  match src with
  | .error e => .error (.scheduleProcessorError ("Failed to process schedule data: " ++ e))
  | .ok dl =>
    match process_schedule_data dl with
    | .ok t => .ok t
    | .error e => .error (.scheduleProcessorError ("Failed to process schedule data: " ++ e))

/-! ## Concrete data used by witnesses and counterexamples -/

/-- `True` exactly for a raised exception (`.error`): the operation failed and
returned no partial result. -/
def isErr {α : Type} : Except String α → Bool
  | .error _ => true
  | .ok _ => false

theorem exists_ok_of_isErr_false {α : Type} (e : Except String α) (h : isErr e = false) :
    ∃ t, e = .ok t := by
  cases e with
  | error m => simp [isErr] at h
  | ok t => exact ⟨t, rfl⟩

/-- The loop state an input produces (only used at inputs where the loop
succeeds; `initState` is a dummy for the error case). -/
def stOf (dl : DataLoader) : AggState :=
  match runAgg dl with
  | .ok st => st
  | .error _ => initState

/-- The worked scenario of spec §8. -/
def scenarioLoader : DataLoader where
  positions := [⟨1, "Manager"⟩, ⟨2, "Developer"⟩]
  workers := [⟨1, "Alice", some 1⟩, ⟨2, "Bob", some 2⟩, ⟨3, "Carol", some 2⟩]
  tasks := [⟨1, some 1, 4, "2025-01-15"⟩, ⟨2, some 2, 6, "2025-01-15"⟩,
    ⟨3, some 2, 3, "2025-01-16"⟩]
  assignments := [⟨1, 1⟩, ⟨2, 2⟩, ⟨3, 3⟩]

/-- The table the worked scenario produces. -/
def scenarioTable : ScheduleTable where
  columns := ["Name", "15 Jan 25", "16 Jan 25"]
  rows := [("Manager", [4, 0]), ("Alice", [4, 0]), ("Developer", [6, 3]),
    ("Bob", [6, 0]), ("Carol", [0, 3])]

/-- One worker assigned to tasks of two different positions on the same date. -/
def splitLoader : DataLoader where
  positions := [⟨1, "P1"⟩, ⟨2, "P2"⟩]
  workers := [⟨1, "W", none⟩]
  tasks := [⟨1, some 1, 4, "2025-01-15"⟩, ⟨2, some 2, 6, "2025-01-15"⟩]
  assignments := [⟨1, 1⟩, ⟨2, 1⟩]

/-- A task with a null `position_id` alongside a real one. -/
def nullPosLoader : DataLoader where
  positions := [⟨1, "Manager"⟩]
  workers := [⟨1, "Alice", some 1⟩, ⟨999, "Unassigned Worker", none⟩]
  tasks := [⟨1, some 1, 4, "2025-01-15"⟩, ⟨999, none, 5, "2025-01-15"⟩]
  assignments := [⟨1, 1⟩, ⟨999, 999⟩]

/-- An assignment whose `task_id` resolves to no task. -/
def danglingTaskLoader : DataLoader where
  positions := [⟨1, "Manager"⟩]
  workers := [⟨1, "Alice", some 1⟩]
  tasks := []
  assignments := [⟨99, 1⟩]

/-- An assignment whose `worker_id` resolves to no worker. -/
def danglingWorkerLoader : DataLoader where
  positions := [⟨1, "Manager"⟩]
  workers := []
  tasks := [⟨1, some 1, 4, "2025-01-15"⟩]
  assignments := [⟨1, 7⟩]

/-- A task pointing at a position id with no position record. -/
def danglingPositionLoader : DataLoader where
  positions := []
  workers := [⟨1, "Alice", some 1⟩]
  tasks := [⟨1, some 5, 4, "2025-01-15"⟩]
  assignments := [⟨1, 1⟩]

/-- A task whose date string does not parse. -/
def badDateLoader : DataLoader where
  positions := [⟨1, "Manager"⟩]
  workers := [⟨1, "Alice", some 1⟩]
  tasks := [⟨1, some 1, 4, "invalid-date"⟩]
  assignments := [⟨1, 1⟩]

/-- A task dated with a three-digit year — `strptime`'s `%Y` wants exactly
four digits, so the program raises on it. -/
def threeDigitYearLoader : DataLoader where
  positions := [⟨1, "Manager"⟩]
  workers := [⟨1, "Alice", some 1⟩]
  tasks := [⟨1, some 1, 4, "999-01-15"⟩]
  assignments := [⟨1, 1⟩]

/-- Bounds recorded by a successful date parse: the triple is a real calendar
date. -/
theorem parseIsoDate_bounds (s : String) (y m d : Nat) (h : parseIsoDate s = some (y, m, d)) :
    1 ≤ y ∧ y ≤ 9999 ∧ 1 ≤ m ∧ m ≤ 12 ∧ 1 ≤ d ∧ d ≤ daysInMonth y m := by
  simp only [parseIsoDate] at h
  split at h
  · split at h
    · split at h
      · exact absurd h (by simp)
      · split at h
        · rename_i hcond
          injection h with h'
          simp only [Prod.mk.injEq] at h'
          obtain ⟨rfl, rfl, rfl⟩ := h'
          simp only [Bool.and_eq_true, decide_eq_true_eq] at hcond
          exact ⟨hcond.1.1.1.1.1, hcond.1.1.1.1.2, hcond.1.1.1.2, hcond.1.1.2, hcond.1.2,
            hcond.2⟩
        · exact absurd h (by simp)
    · exact absurd h (by simp)
  · exact absurd h (by simp)

/-- strptime fidelity at the regex's edges (each line matches CPython's
outcome on `"%Y-%m-%d"`): a three-digit year fails (`%Y` is exactly four
digits), a space-padded day parses like its zero-padded form (`%d`'s ` [1-9]`
alternative), a space-padded month fails (`%m` has no space alternative). -/
theorem parseIsoDate_strptime_edges :
    parseIsoDate "999-01-15" = none ∧
    parseIsoDate "2025-01- 5" = some (2025, 1, 5) ∧
    parseIsoDate "2025- 1-15" = none ∧
    format_date "999-01-15" = .error "Invalid date format 999-01-15" ∧
    format_date "2025-01- 5" = .ok "05 Jan 25" :=
  ⟨rfl, rfl, rfl, rfl, rfl⟩

/-- A three-digit-year task date makes the whole computation fail, as in the
program. -/
theorem process_fails_on_three_digit_year :
    isErr (process_schedule_data threeDigitYearLoader) = true := rfl

/-! ## The claims -/

/-- C7: on positions `[{1,"Manager"},{2,"Developer"}]`, workers
`[{1,"Alice",1},{2,"Bob",2},{3,"Carol",2}]`, tasks
`[{1,1,4,"2025-01-15"},{2,2,6,"2025-01-15"},{3,2,3,"2025-01-16"}]` and
assignments `[{1,1},{2,2},{3,3}]`, `process_schedule_data` returns exactly
columns `["Name","15 Jan 25","16 Jan 25"]` and rows
`[["Manager",4,0],["Alice",4,0],["Developer",6,3],["Bob",6,0],["Carol",0,3]]`,
in that order. -/
theorem C7_worked_scenario :
    process_schedule_data scenarioLoader = .ok scenarioTable := rfl

/-- C2 counterexample: the claim says the formatted day-of-month carries no
leading zero, so that `"2025-01-05"` maps to `"5 Jan 25"`; the code formats
with Django's `d` field (two digits, leading zero) and actually returns
`"05 Jan 25"`. -/
theorem C2_counterexample :
    format_date "2025-01-05" = .ok "05 Jan 25" ∧ "05 Jan 25" ≠ "5 Jan 25" :=
  ⟨rfl, by decide⟩

/-- C2 (amended): for every string that parses as a valid ISO date
`YYYY-MM-DD`, `_format_date` renders the day-of-month as two digits WITH a
leading zero, a three-letter month abbreviation and a two-digit year; in
particular `"2025-01-15"` → `"15 Jan 25"`, `"2025-01-16"` → `"16 Jan 25"` and
`"2025-01-05"` → `"05 Jan 25"`. -/
theorem C2_format_amended :
    (∀ (s : String) (y m d : Nat), parseIsoDate s = some (y, m, d) →
      format_date s = .ok (pad2 d ++ " " ++ monthAbbrev m ++ " " ++ pad2 (y % 100)) ∧
      (pad2 d).length = 2 ∧ (monthAbbrev m).length = 3 ∧ (pad2 (y % 100)).length = 2 ∧
      (d < 10 → (pad2 d).data.head? = some '0')) ∧
    format_date "2025-01-15" = .ok "15 Jan 25" ∧
    format_date "2025-01-16" = .ok "16 Jan 25" ∧
    format_date "2025-01-05" = .ok "05 Jan 25" := by
  refine ⟨?_, rfl, rfl, rfl⟩
  intro s y m d h
  have hbounds := parseIsoDate_bounds s y m d h
  refine ⟨?_, rfl, ?_, rfl, ?_⟩
  · unfold format_date
    rw [h]
  · obtain ⟨-, -, hm1, hm2, -, -⟩ := hbounds
    interval_cases m <;> rfl
  · intro hd
    have hz : d / 10 = 0 := Nat.div_eq_of_lt hd
    simp [pad2, hz, digitChar]

/-- C2 amended witness at `"2025-01-05"`. -/
theorem C2_format_amended_witness :
    parseIsoDate "2025-01-05" = some (2025, 1, 5) ∧
    (format_date "2025-01-05" =
        .ok (pad2 5 ++ " " ++ monthAbbrev 1 ++ " " ++ pad2 (2025 % 100)) ∧
      (pad2 5).length = 2 ∧ (monthAbbrev 1).length = 3 ∧ (pad2 (2025 % 100)).length = 2 ∧
      (5 < 10 → (pad2 5).data.head? = some '0')) :=
  ⟨rfl, C2_format_amended.1 "2025-01-05" 2025 1 5 rfl⟩

/-- C3 counterexample: the claim says a missing or malformed JSON data file
encountered during a request yields the `DATA_LOAD_ERROR` envelope; in the
code the `DataLoaderError` is raised inside `process_schedule_data`'s blanket
`try` (loading is lazy) and re-raised as `ScheduleProcessorError`, so the view
returns the `PROCESSING_ERROR` envelope instead. -/
theorem C3_counterexample :
    responseCode (schedule_table (process_schedule_data_request
        (.error "Data file not found: positions.json"))) = some "PROCESSING_ERROR" ∧
      some "PROCESSING_ERROR" ≠ some "DATA_LOAD_ERROR" :=
  ⟨rfl, by decide⟩

/-- C3 (amended): the view maps a raised `DataLoaderError` to the
`DATA_LOAD_ERROR` envelope, a `ScheduleProcessorError` to `PROCESSING_ERROR`
and any other exception to `INTERNAL_ERROR` — each code is returned exactly
for its exception class; however, because `process_schedule_data` wraps every
exception of its body (including the `DataLoaderError` of the lazy JSON
loading) into `ScheduleProcessorError`, a missing or malformed JSON data file
encountered during a request yields the `PROCESSING_ERROR` envelope, not
`DATA_LOAD_ERROR`. -/
theorem C3_error_codes :
    (∀ r : Except PyError ScheduleTable,
      (responseCode (schedule_table r) = some "DATA_LOAD_ERROR" ↔
        ∃ e, r = .error (.dataLoaderError e)) ∧
      (responseCode (schedule_table r) = some "PROCESSING_ERROR" ↔
        ∃ e, r = .error (.scheduleProcessorError e)) ∧
      (responseCode (schedule_table r) = some "INTERNAL_ERROR" ↔
        ∃ e, r = .error (.otherError e))) ∧
    (∀ e : String, schedule_table (process_schedule_data_request (.error e)) =
      .failure "Failed to process schedule data"
        ("Failed to process schedule data: " ++ e) "PROCESSING_ERROR") := by
  constructor
  · intro r
    cases r with
    | ok t => simp [schedule_table, responseCode]
    | error err =>
      cases err with
      | dataLoaderError e => simp [schedule_table, responseCode]
      | scheduleProcessorError e => simp [schedule_table, responseCode]
      | otherError e => simp [schedule_table, responseCode]
  · intro e
    rfl

/-- C3 amended witness: a `DataLoaderError` reaching the view yields
`DATA_LOAD_ERROR`, and a data-file failure during the request ends in the
`PROCESSING_ERROR` envelope. -/
theorem C3_error_codes_witness :
    (responseCode (schedule_table (.error (.dataLoaderError "Data file not found"))) =
        some "DATA_LOAD_ERROR" ↔
      ∃ e, (Except.error (.dataLoaderError "Data file not found") :
          Except PyError ScheduleTable) = .error (.dataLoaderError e)) ∧
    schedule_table (process_schedule_data_request (.error "Data file not found: tasks.json")) =
      .failure "Failed to process schedule data"
        ("Failed to process schedule data: " ++ "Data file not found: tasks.json")
        "PROCESSING_ERROR" :=
  ⟨(C3_error_codes.1 (.error (.dataLoaderError "Data file not found"))).1,
   C3_error_codes.2 "Data file not found: tasks.json"⟩

/-- C4: dangling references are fatal and atomic.  If any assignment's
`task_id` resolves to no task, or a worker id recorded in some emitted
position group resolves to no worker, or a non-sentinel position id in the
emitted groups resolves to no position, or any seen date string fails to
parse, then `process_schedule_data` raises (`.error`, carrying the cause) and
returns no partial result — the record is never silently skipped. -/
theorem C4_dangling_refs (dl : DataLoader) :
    ((∃ a ∈ dl.assignments, get_task_by_id dl a.task_id = none) →
      isErr (process_schedule_data dl) = true) ∧
    (∀ st, runAgg dl = .ok st →
      ((∃ p w, w ∈ pwLookup st.position_worker p ∧ get_worker_by_id dl w = none) →
        isErr (process_schedule_data dl) = true) ∧
      ((∃ p ∈ pwKeys st.position_worker, p ≠ EMPTY_POSITION_ID ∧
          get_position_by_id dl p = none) →
        isErr (process_schedule_data dl) = true) ∧
      ((∃ d ∈ st.dates, parseIsoDate d = none) →
        isErr (process_schedule_data dl) = true)) := by
  constructor
  · rintro ⟨a, ha, hnone⟩
    cases hE : isErr (process_schedule_data dl)
    · exfalso
      obtain ⟨t, ht⟩ := exists_ok_of_isErr_false _ hE
      obtain ⟨st, rows, fd, hst, -, -, -, -⟩ := process_ok_elim dl t ht
      have hsome := ((runAgg_ok_iff dl st).mp hst).1 a ha
      rw [hnone] at hsome
      simp at hsome
    · rfl
  · intro st hst
    refine ⟨?_, ?_, ?_⟩
    · rintro ⟨p, w, hw, hnone⟩
      cases hE : isErr (process_schedule_data dl)
      · exfalso
        obtain ⟨t, ht⟩ := exists_ok_of_isErr_false _ hE
        obtain ⟨st', rows, fd, hst', hbr, -, -, -⟩ := process_ok_elim dl t ht
        rw [hst] at hst'
        injection hst' with hstst
        subst hstst
        have hkey : p ∈ pwKeys st.position_worker := mem_pwKeys_of_pwLookup _ p w hw
        have hres := buildRows_ok_resolves dl st _ _ _ hbr p ((mem_sortBy _ _ p).mpr hkey)
        have := hres.2 w hw
        rw [hnone] at this
        simp at this
      · rfl
    · rintro ⟨p, hp, hne, hnone⟩
      cases hE : isErr (process_schedule_data dl)
      · exfalso
        obtain ⟨t, ht⟩ := exists_ok_of_isErr_false _ hE
        obtain ⟨st', rows, fd, hst', hbr, -, -, -⟩ := process_ok_elim dl t ht
        rw [hst] at hst'
        injection hst' with hstst
        subst hstst
        have hres := buildRows_ok_resolves dl st _ _ _ hbr p ((mem_sortBy _ _ p).mpr hp)
        have := hres.1 hne
        rw [hnone] at this
        simp at this
      · rfl
    · rintro ⟨d, hd, hnone⟩
      cases hE : isErr (process_schedule_data dl)
      · exfalso
        obtain ⟨t, ht⟩ := exists_ok_of_isErr_false _ hE
        obtain ⟨st', rows, fd, hst', -, hfd, -, -⟩ := process_ok_elim dl t ht
        rw [hst] at hst'
        injection hst' with hstst
        subst hstst
        obtain ⟨c, hc⟩ := mapM_ok_mem format_date _ fd hfd d ((mem_sortBy _ _ d).mpr hd)
        unfold format_date at hc
        rw [hnone] at hc
        simp at hc
      · rfl

/-- C4 witness: each of the four dangling-reference inputs makes the whole
computation fail. -/
theorem C4_dangling_refs_witness :
    isErr (process_schedule_data danglingTaskLoader) = true ∧
    isErr (process_schedule_data danglingWorkerLoader) = true ∧
    isErr (process_schedule_data danglingPositionLoader) = true ∧
    isErr (process_schedule_data badDateLoader) = true :=
  ⟨(C4_dangling_refs danglingTaskLoader).1 ⟨⟨99, 1⟩, by decide, rfl⟩,
   ((C4_dangling_refs danglingWorkerLoader).2 (stOf danglingWorkerLoader) rfl).1
     ⟨1, 7, by decide, rfl⟩,
   (((C4_dangling_refs danglingPositionLoader).2 (stOf danglingPositionLoader) rfl).2.1)
     ⟨5, by decide, by decide, rfl⟩,
   (((C4_dangling_refs badDateLoader).2 (stOf badDateLoader) rfl).2.2)
     ⟨"invalid-date", by decide, rfl⟩⟩

/-- C9: over the same task collection, permuting the assignment list does not
change any per-worker-per-date or per-position-per-date summed hours produced
by the aggregation loop. -/
theorem C9_order_independence (dl₁ dl₂ : DataLoader) (st₁ st₂ : AggState)
    (hperm : dl₁.assignments.Perm dl₂.assignments)
    (htasks : dl₁.tasks = dl₂.tasks)
    (h₁ : runAgg dl₁ = .ok st₁) (h₂ : runAgg dl₂ = .ok st₂) :
    (∀ w d, st₁.worker_date w d = st₂.worker_date w d) ∧
    (∀ p d, st₁.position_date p d = st₂.position_date p d) := by
  have hres : resolveD dl₁ = resolveD dl₂ := by
    funext a
    unfold resolveD get_task_by_id
    rw [htasks]
  obtain ⟨hs₁, hst₁⟩ := (runAgg_ok_iff dl₁ st₁).mp h₁
  obtain ⟨hs₂, hst₂⟩ := (runAgg_ok_iff dl₂ st₂).mp h₂
  subst hst₁
  subst hst₂
  have hpm : (dl₁.assignments.map (resolveD dl₁)).Perm
      (dl₂.assignments.map (resolveD dl₂)) := by
    rw [hres]
    exact hperm.map (resolveD dl₂)
  constructor
  · intro w d
    rw [worker_date_foldl, worker_date_foldl,
      List.Perm.sum_eq ((hpm.filter (fun r => r.wid == w && r.date == d)).map RAssign.dur)]
  · intro p d
    rw [position_date_foldl, position_date_foldl,
      List.Perm.sum_eq ((hpm.filter (fun r => r.pos == p && r.date == d)).map RAssign.dur)]

/-- The worked scenario with its assignment list rotated. -/
def scenarioLoaderPerm : DataLoader where
  positions := scenarioLoader.positions
  workers := scenarioLoader.workers
  tasks := scenarioLoader.tasks
  assignments := [⟨3, 3⟩, ⟨1, 1⟩, ⟨2, 2⟩]

/-- C9 witness: rotating the scenario's assignment list leaves both summed-hour
maps unchanged. -/
theorem C9_order_independence_witness :
    (∀ w d, (stOf scenarioLoader).worker_date w d =
      (stOf scenarioLoaderPerm).worker_date w d) ∧
    (∀ p d, (stOf scenarioLoader).position_date p d =
      (stOf scenarioLoaderPerm).position_date p d) :=
  C9_order_independence scenarioLoader scenarioLoaderPerm
    (stOf scenarioLoader) (stOf scenarioLoaderPerm) (by decide) rfl rfl rfl

/-- C1's conservation property as stated: for every emitted position group and
every date column, the position row's value equals the sum of its member
workers' row values (`position_date[p][d] = Σ_{w ∈ positionWorkers[p]}
workerDateHours[w][d]`). -/
def conservationAt (dl : DataLoader) : Prop :=
  ∀ st, runAgg dl = .ok st → ∀ p ∈ pwKeys st.position_worker, ∀ d ∈ st.dates,
    st.position_date p d =
      ((pwLookup st.position_worker p).map (fun w => st.worker_date w d)).sum

/-- C1 counterexample: one worker assigned to tasks of two different positions
on the same date.  Worker rows are keyed by worker and date only, so the
worker's row shows the total over both positions (10), while each position row
shows only its own hours (4 and 6): conservation fails in the emitted table. -/
theorem C1_conservation_counterexample : ¬ conservationAt splitLoader := by
  intro hc
  have h := hc (stOf splitLoader) rfl 1 (by decide) "2025-01-15" (by decide)
  exact absurd h (by decide)

/-- C1 (amended): conservation holds for every input on which no worker is
recorded in two different position groups (in particular whenever each
worker's assignments all share one effective position); the two-position
counterexample forces exactly this hypothesis. -/
theorem C1_conservation_amended (dl : DataLoader) (st : AggState)
    (h : runAgg dl = .ok st)
    (hsingle : ∀ w p₁ p₂, w ∈ pwLookup st.position_worker p₁ →
      w ∈ pwLookup st.position_worker p₂ → p₁ = p₂) :
    ∀ p d, st.position_date p d =
      ((pwLookup st.position_worker p).map (fun w => st.worker_date w d)).sum := by
  intro p d
  obtain ⟨hsome, hst⟩ := (runAgg_ok_iff dl st).mp h
  subst hst
  rw [position_date_foldl]
  have hwd : ∀ w, (List.foldl applyR initState (dl.assignments.map (resolveD dl))).worker_date w d =
      (((dl.assignments.map (resolveD dl)).filter
        (fun r => r.wid == w && r.date == d)).map RAssign.dur).sum := by
    intro w
    rw [worker_date_foldl]
    show (0 : Int) + _ = _
    rw [zero_add]
  simp only [hwd]
  have hnodup : (pwLookup (List.foldl applyR initState
      (dl.assignments.map (resolveD dl))).position_worker p).Nodup := by
    refine pwLookup_foldl_nodup _ initState ?_ p
    intro q
    show ([] : List Int).Nodup
    exact List.nodup_nil
  rw [sum_group d (dl.assignments.map (resolveD dl)) _ hnodup]
  have hcongr : ∀ r ∈ dl.assignments.map (resolveD dl),
      (r.pos == p && r.date == d) =
        (decide (r.wid ∈ pwLookup (List.foldl applyR initState
          (dl.assignments.map (resolveD dl))).position_worker p) && r.date == d) := by
    intro r hr
    have hmem : r.wid ∈ pwLookup (List.foldl applyR initState
        (dl.assignments.map (resolveD dl))).position_worker r.pos :=
      (pw_foldl_mem _ initState r.pos r.wid).mpr (Or.inr ⟨r, hr, rfl, rfl⟩)
    by_cases hp : r.pos = p
    · have hin : r.wid ∈ pwLookup (List.foldl applyR initState
          (dl.assignments.map (resolveD dl))).position_worker p := hp ▸ hmem
      simp [hp, hin]
    · have hout : r.wid ∉ pwLookup (List.foldl applyR initState
          (dl.assignments.map (resolveD dl))).position_worker p :=
        fun hin => hp (hsingle r.wid r.pos p hmem hin)
      simp [hp, hout]
  rw [List.filter_congr hcongr]
  show (0 : Int) + _ = _
  rw [zero_add]

/-- A `find?`-by-id lookup on two worker lists that agree pointwise on ids and
names finds either nothing in both or records with the same name. -/
theorem find?_worker_name_rel :
    ∀ (l₁ l₂ : List Worker),
      List.Forall₂ (fun w₁ w₂ => w₁.id = w₂.id ∧ w₁.name = w₂.name) l₁ l₂ → ∀ i : Int,
        (l₁.find? (fun w => w.id == i) = none ∧ l₂.find? (fun w => w.id == i) = none) ∨
        (∃ w₁ w₂, l₁.find? (fun w => w.id == i) = some w₁ ∧
          l₂.find? (fun w => w.id == i) = some w₂ ∧ w₁.name = w₂.name) := by
  intro l₁ l₂ h
  induction h with
  | nil => intro i; left; exact ⟨rfl, rfl⟩
  | cons hr hrest ih =>
    intro i
    rename_i a₁ a₂ t₁ t₂
    obtain ⟨hid, hname⟩ := hr
    by_cases hi : a₁.id = i
    · right
      refine ⟨a₁, a₂, ?_, ?_, hname⟩
      · rw [List.find?_cons_of_pos _ (by simpa using hi)]
      · rw [List.find?_cons_of_pos _ (by simpa using (hid ▸ hi))]
    · rw [List.find?_cons_of_neg _ (by simpa using hi),
        List.find?_cons_of_neg _ (by simpa using (hid ▸ hi))]
      exact ih i

/-- The processor's output depends on the worker collection only through the
id-to-name association: two inputs equal except in the workers' stored
`position_id` fields produce identical results. -/
theorem process_congr_workers (dl₁ dl₂ : DataLoader)
    (ha : dl₁.assignments = dl₂.assignments) (ht : dl₁.tasks = dl₂.tasks)
    (hp : dl₁.positions = dl₂.positions)
    (hw : List.Forall₂ (fun w₁ w₂ => w₁.id = w₂.id ∧ w₁.name = w₂.name)
      dl₁.workers dl₂.workers) :
    process_schedule_data dl₁ = process_schedule_data dl₂ := by
  have htask : get_task_by_id dl₁ = get_task_by_id dl₂ := by
    funext i
    unfold get_task_by_id
    rw [ht]
  have hposf : get_position_by_id dl₁ = get_position_by_id dl₂ := by
    funext i
    unfold get_position_by_id
    rw [hp]
  have hwrel := find?_worker_name_rel dl₁.workers.reverse dl₂.workers.reverse
    (List.forall₂_reverse_iff.mpr hw)
  have hwr : ∀ st ds, buildWorkerRow dl₁ st ds = buildWorkerRow dl₂ st ds := by
    intro st ds
    funext w
    unfold buildWorkerRow get_worker_by_id
    rcases hwrel w with ⟨h₁, h₂⟩ | ⟨w₁, w₂, h₁, h₂, hname⟩
    · rw [h₁, h₂]
    · rw [h₁, h₂]
      show Except.ok (w₁.name, _) = Except.ok (w₂.name, _)
      rw [hname]
  have hbg : ∀ st ds, buildGroup dl₁ st ds = buildGroup dl₂ st ds := by
    intro st ds
    funext p
    unfold buildGroup
    rw [hposf, hwr]
  have hrows : ∀ st ds ps, buildRows dl₁ st ds ps = buildRows dl₂ st ds ps := by
    intro st ds ps
    induction ps with
    | nil => rfl
    | cons q ps ih =>
      unfold buildRows
      rw [hbg, ih]
  have hpa : procAssign dl₁ = procAssign dl₂ := by
    funext st a
    unfold procAssign
    rw [htask]
  have hagg : runAgg dl₁ = runAgg dl₂ := by
    unfold runAgg
    rw [ha, hpa]
  unfold process_schedule_data
  rw [hagg]
  cases runAgg dl₂ with
  | error e => rfl
  | ok st =>
    show (buildRows dl₁ st _ _).bind _ = (buildRows dl₂ st _ _).bind _
    rw [hrows]

/-- C5: the position bucket an assignment's hours land in is derived from the
TASK's `position_id` (the sentinel when null) — `position_date[p][d]` sums
exactly the durations of assignments whose task's effective position is `p` —
and the worker's own stored `position_id` never influences the output: two
inputs differing only in the workers' `position_id` fields produce the same
table, hence the same grouping of worker rows. -/
theorem C5_effective_position :
    (∀ (dl : DataLoader) (a : Assignment) (task : Task),
      get_task_by_id dl a.task_id = some task →
        (resolveD dl a).pos = task.position_id.getD EMPTY_POSITION_ID ∧
        (resolveD dl a).wid = a.worker_id) ∧
    (∀ (dl : DataLoader) (st : AggState), runAgg dl = .ok st → ∀ p d,
      st.position_date p d =
        (((dl.assignments.map (resolveD dl)).filter
          (fun r => r.pos == p && r.date == d)).map RAssign.dur).sum) ∧
    (∀ dl₁ dl₂ : DataLoader, dl₁.assignments = dl₂.assignments → dl₁.tasks = dl₂.tasks →
      dl₁.positions = dl₂.positions →
      List.Forall₂ (fun w₁ w₂ => w₁.id = w₂.id ∧ w₁.name = w₂.name)
        dl₁.workers dl₂.workers →
      process_schedule_data dl₁ = process_schedule_data dl₂) := by
  refine ⟨?_, ?_, process_congr_workers⟩
  · intro dl a task h
    unfold resolveD
    rw [h]
    exact ⟨rfl, rfl⟩
  · intro dl st h p d
    obtain ⟨-, hst⟩ := (runAgg_ok_iff dl st).mp h
    subst hst
    rw [position_date_foldl]
    show (0 : Int) + _ = _
    rw [zero_add]

/-- The worked scenario with every worker's stored `position_id` changed. -/
def scenarioLoaderAltWorkers : DataLoader where
  positions := scenarioLoader.positions
  workers := [⟨1, "Alice", none⟩, ⟨2, "Bob", some 7⟩, ⟨3, "Carol", some 1⟩]
  tasks := scenarioLoader.tasks
  assignments := scenarioLoader.assignments

/-- C5 witness: the resolved fields of the scenario's first assignment come
from its task, the Developer bucket sums exactly its tasks' durations, and
scrambling the workers' stored positions leaves the output unchanged. -/
theorem C5_effective_position_witness :
    ((resolveD scenarioLoader ⟨1, 1⟩).pos =
        (Option.some (1 : Int)).getD EMPTY_POSITION_ID ∧
      (resolveD scenarioLoader ⟨1, 1⟩).wid = (1 : Int)) ∧
    (stOf scenarioLoader).position_date 2 "2025-01-15" =
      (((scenarioLoader.assignments.map (resolveD scenarioLoader)).filter
        (fun r => r.pos == 2 && r.date == "2025-01-15")).map RAssign.dur).sum ∧
    process_schedule_data scenarioLoader = process_schedule_data scenarioLoaderAltWorkers :=
  ⟨C5_effective_position.1 scenarioLoader ⟨1, 1⟩ ⟨1, some 1, 4, "2025-01-15"⟩ rfl,
   C5_effective_position.2.1 scenarioLoader (stOf scenarioLoader) rfl 2 "2025-01-15",
   C5_effective_position.2.2 scenarioLoader scenarioLoaderAltWorkers rfl rfl rfl
     (.cons ⟨rfl, rfl⟩ (.cons ⟨rfl, rfl⟩ (.cons ⟨rfl, rfl⟩ .nil)))⟩

/-- In a duplicate-free list sorted by the position comparator that contains
the sentinel, the sentinel is the last element and the remaining prefix is
strictly ascending. -/
theorem sorted_sentinel_last :
    ∀ ks : List Int, ks.Nodup → ks.Pairwise (fun a b => posLE a b = true) →
      EMPTY_POSITION_ID ∈ ks →
      ks.getLast? = some EMPTY_POSITION_ID ∧
      EMPTY_POSITION_ID ∉ ks.dropLast ∧
      ks.dropLast.Pairwise (fun a b : Int => a < b) := by
  intro ks
  induction ks with
  | nil => intro _ _ hE; simp at hE
  | cons x rest ih =>
    intro hnd hpw hE
    cases rest with
    | nil =>
      have hx : x = EMPTY_POSITION_ID := by
        rcases List.mem_cons.mp hE with h | h
        · exact h.symm
        · simp at h
      subst hx
      exact ⟨rfl, by simp, by simp⟩
    | cons y rest' =>
      rw [List.pairwise_cons] at hpw
      obtain ⟨hx, hpw'⟩ := hpw
      rw [List.nodup_cons] at hnd
      obtain ⟨hxnotin, hnd'⟩ := hnd
      have hxE : x ≠ EMPTY_POSITION_ID := by
        rintro rfl
        have hy := posLE_sentinel_left y (hx y (List.mem_cons_self y rest'))
        exact hxnotin (hy ▸ List.mem_cons_self y rest')
      have hE' : EMPTY_POSITION_ID ∈ y :: rest' := by
        rcases List.mem_cons.mp hE with h | h
        · exact absurd h.symm hxE
        · exact h
      obtain ⟨hlast, hnotdrop, hsorted⟩ := ih hnd' hpw' hE'
      refine ⟨?_, ?_, ?_⟩
      · rw [List.getLast?_cons_cons]
        exact hlast
      · rw [List.dropLast_cons₂]
        intro hmem
        rcases List.mem_cons.mp hmem with hm | hm
        · exact hxE hm.symm
        · exact hnotdrop hm
      · rw [List.dropLast_cons₂, List.pairwise_cons]
        refine ⟨?_, hsorted⟩
        intro z hz
        have hzmem : z ∈ y :: rest' := (List.dropLast_sublist (y :: rest')).subset hz
        have hzE : z ≠ EMPTY_POSITION_ID := fun hzq => hnotdrop (hzq ▸ hz)
        have hxz : x ≤ z := (posLE_real x z hxE hzE).mp (hx z hzmem)
        have hne : x ≠ z := fun hq => hxnotin (hq ▸ hzmem)
        exact lt_of_le_of_ne hxz hne

/-- C6: whenever at least one processed task has a null `position_id`, the
sorted position-group order contains the sentinel, places it last (so the
"Empty Position" group is the last position group in the rows), keeps the
sentinel out of the preceding groups, which are strictly ascending by id, and
the output contains a row named "Empty Position". -/
theorem C6_sentinel_ordering (dl : DataLoader) (t : ScheduleTable)
    (h : process_schedule_data dl = .ok t)
    (hnull : ∃ a ∈ dl.assignments, ∃ task, get_task_by_id dl a.task_id = some task ∧
      task.position_id = none) :
    ∃ st, runAgg dl = .ok st ∧
      EMPTY_POSITION_ID ∈ sortBy posLE (pwKeys st.position_worker) ∧
      (sortBy posLE (pwKeys st.position_worker)).getLast? = some EMPTY_POSITION_ID ∧
      EMPTY_POSITION_ID ∉ (sortBy posLE (pwKeys st.position_worker)).dropLast ∧
      (sortBy posLE (pwKeys st.position_worker)).dropLast.Pairwise (fun a b : Int => a < b) ∧
      EMPTY_POSITION_NAME ∈ t.rows.map Prod.fst := by
  obtain ⟨st, rows, fd, hst, hbr, hfd, hrows, hcols⟩ := process_ok_elim dl t h
  refine ⟨st, hst, ?_⟩
  obtain ⟨a, ha, task, htask, hposn⟩ := hnull
  obtain ⟨hsome, hstval⟩ := (runAgg_ok_iff dl st).mp hst
  have hrE : EMPTY_POSITION_ID ∈ pwKeys st.position_worker := by
    rw [hstval]
    refine (pwKeys_foldl_mem _ initState EMPTY_POSITION_ID).mpr (Or.inr ?_)
    refine ⟨resolveD dl a, List.mem_map_of_mem (resolveD dl) ha, ?_⟩
    unfold resolveD
    rw [htask]
    show task.position_id.getD EMPTY_POSITION_ID = EMPTY_POSITION_ID
    rw [hposn]
    rfl
  have hkE : EMPTY_POSITION_ID ∈ sortBy posLE (pwKeys st.position_worker) :=
    (mem_sortBy posLE _ EMPTY_POSITION_ID).mpr hrE
  have hndkeys : (pwKeys st.position_worker).Nodup := by
    rw [hstval]
    exact pwKeys_foldl_nodup _ initState List.nodup_nil
  have hnd : (sortBy posLE (pwKeys st.position_worker)).Nodup :=
    nodup_sortBy posLE _ hndkeys
  have hpw := pairwise_sortBy posLE posLE_total posLE_trans (pwKeys st.position_worker)
  obtain ⟨hlast, hnotdrop, hsort⟩ := sorted_sentinel_last _ hnd hpw hkE
  refine ⟨hkE, hlast, hnotdrop, hsort, ?_⟩
  obtain ⟨g, hg, hmem⟩ := buildRows_mem_of_group dl st _ _ _ hbr EMPTY_POSITION_ID hkE
  obtain ⟨name, wrows, hname, hm, rfl⟩ := buildGroup_ok_elim dl st _ _ _ hg
  rw [if_pos rfl] at hname
  subst hname
  have hrow : (EMPTY_POSITION_NAME,
      (sortBy strLE st.dates).map (fun d => st.position_date EMPTY_POSITION_ID d)) ∈ rows :=
    hmem _ (List.mem_cons_self _ _)
  rw [hrows]
  exact List.mem_map_of_mem Prod.fst hrow

/-- The table produced by the null-position input. -/
def nullPosTable : ScheduleTable where
  columns := ["Name", "15 Jan 25"]
  rows := [("Manager", [4]), ("Alice", [4]), ("Empty Position", [5]),
    ("Unassigned Worker", [5])]

/-- C6 witness: on the null-position input, the sentinel group exists, comes
last, and the table has an "Empty Position" row. -/
theorem C6_sentinel_ordering_witness :
    ∃ st, runAgg nullPosLoader = .ok st ∧
      EMPTY_POSITION_ID ∈ sortBy posLE (pwKeys st.position_worker) ∧
      (sortBy posLE (pwKeys st.position_worker)).getLast? = some EMPTY_POSITION_ID ∧
      EMPTY_POSITION_ID ∉ (sortBy posLE (pwKeys st.position_worker)).dropLast ∧
      (sortBy posLE (pwKeys st.position_worker)).dropLast.Pairwise (fun a b : Int => a < b) ∧
      EMPTY_POSITION_NAME ∈ nullPosTable.rows.map Prod.fst :=
  C6_sentinel_ordering nullPosLoader nullPosTable rfl
    ⟨⟨999, 999⟩, by decide, ⟨999, none, 5, "2025-01-15"⟩, rfl, rfl⟩

/-- C8: with an empty assignment list the processor returns
`{columns: [], rows: []}`; otherwise the columns are `"Name"` followed by the
formatted distinct seen dates in ascending (ISO/lexicographic, hence
chronological for canonical dates) order, and every emitted row has exactly
one value per date column. -/
theorem C8_empty_and_columns (dl : DataLoader) (t : ScheduleTable)
    (h : process_schedule_data dl = .ok t) :
    (dl.assignments = [] → t = ⟨[], []⟩) ∧
    (dl.assignments ≠ [] → ∃ ds cs,
      List.Pairwise (fun a b => strLT a b = true) ds ∧
      (∀ d, d ∈ ds ↔ ∃ a ∈ dl.assignments, ∃ task,
        get_task_by_id dl a.task_id = some task ∧ task.date = d) ∧
      List.Forall₂ (fun d c => format_date d = .ok c) ds cs ∧
      t.columns = "Name" :: cs ∧
      ∀ row ∈ t.rows, row.2.length = ds.length) := by
  obtain ⟨st, rows, fd, hst, hbr, hfd, hrows, hcols⟩ := process_ok_elim dl t h
  obtain ⟨hsome, hstval⟩ := (runAgg_ok_iff dl st).mp hst
  constructor
  · intro hempty
    rw [hempty] at hstval
    have hinit : st = initState := by
      rw [hstval]
      rfl
    subst hinit
    have hrnil : rows = [] := by
      have hb : Except.ok ([] : List (String × List Int)) = .ok rows := hbr
      injection hb with hb'
      exact hb'.symm
    subst hrnil
    have hfnil : fd = [] := by
      have hf : Except.ok ([] : List String) = .ok fd := hfd
      injection hf with hf'
      exact hf'.symm
    subst hfnil
    cases t with
    | mk cols rws =>
      simp only at hrows hcols
      rw [show rws = [] from hrows]
      simp only [List.length_nil, gt_iff_lt, lt_irrefl, if_false] at hcols
      rw [hcols]
  · intro hne
    refine ⟨sortBy strLE st.dates, fd, ?_, ?_, mapM_ok_forall₂ _ _ _ hfd, ?_, ?_⟩
    · have hp := pairwise_sortBy strLE strLE_total strLE_trans st.dates
      have hnodup : (sortBy strLE st.dates).Nodup := by
        refine nodup_sortBy _ _ ?_
        rw [hstval]
        exact dates_foldl_nodup _ initState List.nodup_nil
      exact (hp.and hnodup).imp (fun hab => strLT_of_strLE_of_ne _ _ hab.1 hab.2)
    · intro d
      rw [mem_sortBy, hstval, dates_foldl_mem]
      constructor
      · rintro (hmem | ⟨r, hr, hdate⟩)
        · exact absurd hmem (by simp [initState])
        · obtain ⟨a, ha, rfl⟩ := List.mem_map.mp hr
          have hs := hsome a ha
          cases hc : get_task_by_id dl a.task_id with
          | none => rw [hc] at hs; simp at hs
          | some task =>
            refine ⟨a, ha, task, hc, ?_⟩
            unfold resolveD at hdate
            rw [hc] at hdate
            exact hdate
      · rintro ⟨a, ha, task, hc, hdate⟩
        right
        refine ⟨resolveD dl a, List.mem_map_of_mem _ ha, ?_⟩
        unfold resolveD
        rw [hc]
        exact hdate
    · rw [hcols]
      have hpos : rows.length > 0 := by
        cases hassign : dl.assignments with
        | nil => exact absurd hassign hne
        | cons a₀ rest =>
          have hkey : (resolveD dl a₀).pos ∈ pwKeys st.position_worker := by
            rw [hstval]
            refine (pwKeys_foldl_mem _ initState _).mpr (Or.inr ?_)
            refine ⟨resolveD dl a₀, ?_, rfl⟩
            rw [hassign]
            exact List.mem_map_of_mem _ (List.mem_cons_self _ _)
          have hks : (resolveD dl a₀).pos ∈ sortBy posLE (pwKeys st.position_worker) :=
            (mem_sortBy _ _ _).mpr hkey
          cases hsp : sortBy posLE (pwKeys st.position_worker) with
          | nil => rw [hsp] at hks; simp at hks
          | cons p ps =>
            rw [hsp] at hbr
            exact List.length_pos.mpr (buildRows_ne_nil dl st _ p ps rows hbr)
      rw [if_pos hpos]
    · intro row hrow
      rw [hrows] at hrow
      exact buildRows_row_length dl st _ _ _ hbr row hrow

/-- The loader whose four collections are all empty. -/
def emptyLoader : DataLoader where
  positions := []
  workers := []
  tasks := []
  assignments := []

/-- C8 witness: the empty input returns the empty table, and on the worked
scenario the columns are `"Name"` plus formatted sorted dates and all rows
have one value per date. -/
theorem C8_empty_and_columns_witness :
    ((ScheduleTable.mk [] []) = ⟨[], []⟩) ∧
    (∃ ds cs, List.Pairwise (fun a b => strLT a b = true) ds ∧
      (∀ d, d ∈ ds ↔ ∃ a ∈ scenarioLoader.assignments, ∃ task,
        get_task_by_id scenarioLoader a.task_id = some task ∧ task.date = d) ∧
      List.Forall₂ (fun d c => format_date d = .ok c) ds cs ∧
      scenarioTable.columns = "Name" :: cs ∧
      ∀ row ∈ scenarioTable.rows, row.2.length = ds.length) :=
  ⟨(C8_empty_and_columns emptyLoader ⟨[], []⟩ rfl).1 rfl,
   (C8_empty_and_columns scenarioLoader scenarioTable rfl).2 (by decide)⟩

theorem two_le_countP {α : Type} (l : List α) (pred : α → Bool)
    (a b : α) (ha : a ∈ l) (hb : b ∈ l) (hab : a ≠ b)
    (hpa : pred a = true) (hpb : pred b = true) : 2 ≤ l.countP pred := by
  rw [List.countP_eq_length_filter]
  have ha' : a ∈ l.filter pred := List.mem_filter.mpr ⟨ha, hpa⟩
  have hb' : b ∈ l.filter pred := List.mem_filter.mpr ⟨hb, hpb⟩
  rcases hf : l.filter pred with _ | ⟨x, _ | ⟨y, rest⟩⟩
  · rw [hf] at ha'
    simp at ha'
  · rw [hf] at ha' hb'
    simp at ha' hb'
    exact absurd (ha'.trans hb'.symm) hab
  · simp

/-- C10: per-worker hours are keyed by worker and date only — never split by
position.  If one worker's assignments resolve to two different effective
positions, the worker id is recorded in both positions' worker sets, the
identical worker row (each cell the worker's total over ALL positions for that
date) is emitted under both groups — so it occurs at least twice in the table
— and every cell of that row is the sum of the worker's durations on that date
across all assignments regardless of position. -/
theorem C10_merged_worker_rows (dl : DataLoader) (t : ScheduleTable) (st : AggState)
    (h : process_schedule_data dl = .ok t) (hst : runAgg dl = .ok st)
    (p₁ p₂ w : Int) (hp : p₁ ≠ p₂) (r₁ r₂ : RAssign)
    (hr₁ : r₁ ∈ dl.assignments.map (resolveD dl))
    (hr₂ : r₂ ∈ dl.assignments.map (resolveD dl))
    (hw₁ : r₁.wid = w) (hw₂ : r₂.wid = w) (hq₁ : r₁.pos = p₁) (hq₂ : r₂.pos = p₂) :
    w ∈ pwLookup st.position_worker p₁ ∧
    w ∈ pwLookup st.position_worker p₂ ∧
    (∃ wk, get_worker_by_id dl w = some wk ∧
      2 ≤ t.rows.count (wk.name, (sortBy strLE st.dates).map (fun d => st.worker_date w d))) ∧
    (∀ d, st.worker_date w d =
      (((dl.assignments.map (resolveD dl)).filter
        (fun r => r.wid == w && r.date == d)).map RAssign.dur).sum) := by
  obtain ⟨hsome, hstval⟩ := (runAgg_ok_iff dl st).mp hst
  have hm₁ : w ∈ pwLookup st.position_worker p₁ := by
    rw [hstval]
    exact (pw_foldl_mem _ initState p₁ w).mpr (Or.inr ⟨r₁, hr₁, hq₁, hw₁⟩)
  have hm₂ : w ∈ pwLookup st.position_worker p₂ := by
    rw [hstval]
    exact (pw_foldl_mem _ initState p₂ w).mpr (Or.inr ⟨r₂, hr₂, hq₂, hw₂⟩)
  refine ⟨hm₁, hm₂, ?_, ?_⟩
  · obtain ⟨st', rows, fd, hst', hbr, hfd, hrows, hcols⟩ := process_ok_elim dl t h
    rw [hst] at hst'
    injection hst' with hstst
    subst hstst
    have hk₁ : p₁ ∈ sortBy posLE (pwKeys st.position_worker) :=
      (mem_sortBy _ _ _).mpr (mem_pwKeys_of_pwLookup _ p₁ w hm₁)
    have hk₂ : p₂ ∈ sortBy posLE (pwKeys st.position_worker) :=
      (mem_sortBy _ _ _).mpr (mem_pwKeys_of_pwLookup _ p₂ w hm₂)
    have hres := buildRows_ok_resolves dl st _ _ _ hbr p₁ hk₁
    have hws := hres.2 w hm₁
    cases hwk : get_worker_by_id dl w with
    | none => rw [hwk] at hws; simp at hws
    | some wk =>
      refine ⟨wk, rfl, ?_⟩
      have hcp := two_le_countP (sortBy posLE (pwKeys st.position_worker))
        (fun p => decide (w ∈ pwLookup st.position_worker p)) p₁ p₂ hk₁ hk₂ hp
        (by simp [hm₁]) (by simp [hm₂])
      have hcount := buildRows_count_workerRow dl st _ w wk hwk _ rows hbr
      rw [hrows]
      omega
  · intro d
    rw [hstval, worker_date_foldl]
    show (0 : Int) + _ = _
    rw [zero_add]

/-- The table the two-position worker input produces: the worker's merged row
appears under both groups. -/
def splitTable : ScheduleTable where
  columns := ["Name", "15 Jan 25"]
  rows := [("P1", [4]), ("W", [10]), ("P2", [6]), ("W", [10])]

/-- C10 witness on the two-position worker input. -/
theorem C10_merged_worker_rows_witness :
    (1 : Int) ∈ pwLookup (stOf splitLoader).position_worker 1 ∧
    (1 : Int) ∈ pwLookup (stOf splitLoader).position_worker 2 ∧
    (∃ wk, get_worker_by_id splitLoader 1 = some wk ∧
      2 ≤ splitTable.rows.count (wk.name, (sortBy strLE (stOf splitLoader).dates).map
        (fun d => (stOf splitLoader).worker_date 1 d))) ∧
    (∀ d, (stOf splitLoader).worker_date 1 d =
      (((splitLoader.assignments.map (resolveD splitLoader)).filter
        (fun r => r.wid == 1 && r.date == d)).map RAssign.dur).sum) :=
  C10_merged_worker_rows splitLoader splitTable (stOf splitLoader) rfl rfl 1 2 1
    (by decide) ⟨1, "2025-01-15", 4, 1⟩ ⟨1, "2025-01-15", 6, 2⟩
    (by decide) (by decide) rfl rfl rfl rfl

/-- A single worker with a single one-position task. -/
def monoLoader : DataLoader where
  positions := [⟨1, "P"⟩]
  workers := [⟨1, "W", some 1⟩]
  tasks := [⟨1, some 1, 4, "2025-01-15"⟩]
  assignments := [⟨1, 1⟩]

/-- C1 amended witness: on a one-worker one-position input the single-group
hypothesis holds and conservation follows at the emitted group and date. -/
theorem C1_conservation_amended_witness :
    (stOf monoLoader).position_date 1 "2025-01-15" =
      ((pwLookup (stOf monoLoader).position_worker 1).map
        (fun w => (stOf monoLoader).worker_date w "2025-01-15")).sum := by
  refine C1_conservation_amended monoLoader (stOf monoLoader) rfl ?_ 1 "2025-01-15"
  intro w p₁ p₂ h₁ h₂
  have k₁ := mem_pwKeys_of_pwLookup _ _ _ h₁
  have k₂ := mem_pwKeys_of_pwLookup _ _ _ h₂
  have e : pwKeys (stOf monoLoader).position_worker = [1] := rfl
  rw [e] at k₁ k₂
  simp at k₁ k₂
  rw [k₁, k₂]

end Scheduler
